import Mathlib

/-!
Verification of the generic thread-safe singly-linked list in
pkg/data/list.go.

The Go code manipulates heap-allocated nodes through pointers, compares
pointers for identity (Delete, DeleteTail), and caches a tail pointer plus
an integer length next to the head pointer.  We embed it with an explicit
heap: every allocated node gets a fresh numeric id (an allocation counter
plays the role of the address), the heap is an association list from ids to
node records, and a pointer is an Option id (none is the nil pointer).
Unlinked nodes stay in the heap, exactly as garbage-collected Go memory
stays valid while a caller holds a pointer to it.

Go loops that chase next pointers are embedded with explicit fuel; one unit
of fuel is spent per loop iteration, and a fuel of heap size + 1 is always
enough on well-formed states because a chain without repeated nodes cannot
be longer than the number of allocated nodes.  The Go int length field is
embedded as Int (no claim comes near 64-bit overflow).
-/

set_option autoImplicit false

namespace GoListModel

variable {T : Type}

/-- A node of the singly linked list: one stored value and the id of the
next node (none embeds the nil next pointer).  Mirrors ListNode in
list.go. -/
structure ListNode (T : Type) where
  value : T
  next  : Option Nat
  deriving Repr, DecidableEq

/-- The heap of allocated nodes: an association list from node ids
(allocation addresses) to node records. -/
abbrev Heap (T : Type) : Type := List (Nat × ListNode T)

/-- Read the node stored at id i, none if no node with that id was ever
allocated (a dangling id, which cannot arise from a Go pointer). -/
def hLookup (h : Heap T) (i : Nat) : Option (ListNode T) :=
  match h with
  | [] => none
  | (k, nd) :: rest => if k = i then some nd else hLookup rest i

/-- In-place update of the next field of the node at id i: embeds the Go
statement node.next = nxt. -/
def hSetNext (h : Heap T) (i : Nat) (nxt : Option Nat) : Heap T :=
  (h : List (Nat × ListNode T)).map
    (fun p => if p.1 = i then (p.1, ListNode.mk p.2.value nxt) else p)

/-- The ids of all allocated nodes. -/
def hKeys (h : Heap T) : List Nat :=
  (h : List (Nat × ListNode T)).map Prod.fst

/-- The full state of a Go List value: the fields head, tail, length of
struct List in list.go, together with the heap of nodes reachable from the
program and an allocation counter supplying fresh node ids. -/
structure GoList (T : Type) where
  heap   : Heap T
  head   : Option Nat
  tail   : Option Nat
  length : Int
  nodeCt : Nat
  deriving Repr

/-- NewList: the empty list with no allocated nodes.  Mirrors NewList. -/
def newList (T : Type) : GoList T :=
  GoList.mk [] none none 0 0

/-- Insert on a non-nil list (list.go lines 74-87, after the nil check):
allocate a node whose next is the old head, make it the new tail when the
tail was nil, make it the new head, increment length. -/
def insertGo (s : GoList T) (value : T) : GoList T :=
  let nid := s.nodeCt
  GoList.mk ((nid, ListNode.mk value s.head) :: s.heap)
    (some nid)
    (if s.tail = none then some nid else s.tail)
    (s.length + 1)
    (nid + 1)

/-- Append on a non-nil list (list.go lines 90-106, after the nil check):
allocate a node with nil next; if the tail was nil the node becomes both
head and tail, otherwise the old tail node is pointed at it and it becomes
the new tail; increment length. -/
def appendGo (s : GoList T) (value : T) : GoList T :=
  let nid := s.nodeCt
  let h1 : Heap T := (nid, ListNode.mk value none) :: s.heap
  match s.tail with
  | none =>
    GoList.mk h1 (some nid) (some nid) (s.length + 1) (nid + 1)
  | some t =>
    GoList.mk (hSetNext h1 t (some nid)) s.head (some nid) (s.length + 1) (nid + 1)

/-- The loop of findParent (list.go lines 114-122): walk the chain from
cur carrying the previously visited node in last; on the first node whose
value equals the searched value return (last, that node), otherwise
(nil, nil).  Fuel bounds the number of iterations; on well-formed states a
fuel of heap size + 1 never runs out. -/
def findParentAux [DecidableEq T] (h : Heap T) (value : T) :
    Option Nat → Option Nat → Nat → Option Nat × Option Nat
  | _, none, _ => (none, none)
  | _, some _, 0 => (none, none)
  | last, some i, fuel + 1 =>
    match hLookup h i with
    | none => (none, none)
    | some nd =>
      if nd.value = value then (last, some i)
      else findParentAux h value (some i) nd.next fuel

/-- findParent on a non-nil list: the loop started at the head with no
previous node. -/
def findParentGo [DecidableEq T] (s : GoList T) (value : T) :
    Option Nat × Option Nat :=
  findParentAux s.heap value none s.head (s.heap.length + 1)

/-- A Go runtime panic observable from this package. -/
inductive GoCrash where
  | nilDeref
  deriving Repr, DecidableEq

/-- Find (list.go lines 127-134).  The receiver may be a nil handle; the
first statement list.mux.RLock() dereferences the receiver, so a nil
handle panics before the nil check inside findParent can run.  On a
non-nil handle it returns the found component of findParent. -/
def findList [DecidableEq T] : Option (GoList T) → T → Except GoCrash (Option Nat)
  | none, _ => Except.error GoCrash.nilDeref
  | some s, value => Except.ok (findParentGo s value).2

/-- Delete on a non-nil list (list.go lines 137-155): locate the first
node holding the value together with its parent; when absent return false
with no mutation; otherwise bypass it from the parent, move head past it
when it was the head, pull tail back to the parent when it was the tail,
and decrement length. -/
def deleteGo [DecidableEq T] (s : GoList T) (value : T) : Bool × GoList T :=
  match findParentGo s value with
  | (_, none) => (false, s)
  | (parent, some f) =>
    let fNext : Option Nat := Option.bind (hLookup s.heap f) ListNode.next
    let h1 : Heap T :=
      match parent with
      | some p => hSetNext s.heap p fNext
      | none => s.heap
    (true, GoList.mk h1
      (if s.head = some f then fNext else s.head)
      (if s.tail = some f then parent else s.tail)
      (s.length - 1)
      s.nodeCt)

/-- DeleteHead on a non-nil list (list.go lines 158-172): on an empty list
return the zero value and false without mutation; otherwise return the
head value, advance head, clear tail when the list became empty, decrement
length. -/
def deleteHeadGo [Inhabited T] (s : GoList T) : T × Bool × GoList T :=
  match s.head with
  | none => (default, false, s)
  | some hid =>
    match hLookup s.heap hid with
    | none => (default, false, s)
    | some nd =>
      (nd.value, true, GoList.mk s.heap nd.next
        (if nd.next = none then none else s.tail)
        (s.length - 1)
        s.nodeCt)

/-- The parent-of-tail scan of DeleteTail (list.go lines 186-190): walk
the whole chain from cur and remember the last node whose next pointer
equals the tail pointer.  Fuel bounds the iterations as in
findParentAux. -/
def findTailParentAux (h : Heap T) (tl : Option Nat) :
    Option Nat → Option Nat → Nat → Option Nat
  | none, parent, _ => parent
  | some _, parent, 0 => parent
  | some i, parent, fuel + 1 =>
    match hLookup h i with
    | none => parent
    | some nd =>
      findTailParentAux h tl nd.next
        (if nd.next = tl then some i else parent) fuel

/-- DeleteTail on a non-nil list (list.go lines 175-200): on an empty list
return the zero value and false without mutation; otherwise read the tail
value, scan for the parent of the tail; with no parent the list becomes
empty, otherwise the parent loses its next pointer and becomes the tail;
decrement length. -/
def deleteTailGo [Inhabited T] (s : GoList T) : T × Bool × GoList T :=
  match s.tail with
  | none => (default, false, s)
  | some t =>
    let value : T :=
      match hLookup s.heap t with
      | some nd => nd.value
      | none => default
    match findTailParentAux s.heap (some t) s.head none (s.heap.length + 1) with
    | none =>
      (value, true, GoList.mk s.heap none none (s.length - 1) s.nodeCt)
    | some p =>
      (value, true, GoList.mk (hSetNext s.heap p none) s.head (some p)
        (s.length - 1) s.nodeCt)

/-- The loop of ForEach (list.go lines 206-209), embedded verbatim: the
body calls f on the value of currentNode but never advances currentNode.
The result is the reversed log of visited values when the loop exits, and
none when the fuel is exhausted with the loop still running. -/
def forEachRun (h : Heap T) : Option Nat → Nat → List T → Option (List T)
  | none, _, acc => some acc.reverse
  | some _, 0, _ => none
  | some i, fuel + 1, acc =>
    match hLookup h i with
    | none => none
    | some nd => forEachRun h (some i) fuel (nd.value :: acc)

/-- ForEach on a non-nil list, run for a given amount of fuel. -/
def forEachGo (s : GoList T) (fuel : Nat) : Option (List T) :=
  forEachRun s.heap s.head fuel []

/-- The value-collecting loop of String (list.go lines 219-224): walk the
chain from cur collecting values.  Fuel as in findParentAux. -/
def collectValues (h : Heap T) : Option Nat → Nat → List T
  | none, _ => []
  | some _, 0 => []
  | some i, fuel + 1 =>
    match hLookup h i with
    | none => []
    | some nd => nd.value :: collectValues h nd.next fuel

/-- The head-to-tail sequence of element values of a list state: what the
traversal loops of the source observe. -/
def listValues (s : GoList T) : List T :=
  collectValues s.heap s.head (s.heap.length + 1)

/-- String (list.go lines 213-231): an empty string on a nil handle;
otherwise collect the values and fold them onto the Sprintf prefix with a
space before each value, exactly as the source string concatenation
does. -/
def stringGo (toStr : T → String) : Option (GoList T) → String
  | none => ""
  | some s =>
    (listValues s).foldl (fun acc v => acc ++ " " ++ toStr v)
      ("Length: " ++ toString s.length ++ ", Data:")

/-- Head (list.go lines 41-46): nil on a nil handle, the head pointer
otherwise. -/
def headGo : Option (GoList T) → Option Nat
  | none => none
  | some s => s.head

/-- Tail (list.go lines 49-54): nil on a nil handle, the tail pointer
otherwise. -/
def tailGo : Option (GoList T) → Option Nat
  | none => none
  | some s => s.tail

/-- Value (list.go lines 57-63): the zero value and false on a nil node,
the stored value and true otherwise; reads the node through the heap. -/
def valueGo [Inhabited T] (h : Heap T) : Option Nat → T × Bool
  | none => (default, false)
  | some i =>
    match hLookup h i with
    | none => (default, false)
    | some nd => (nd.value, true)

/-- Next (list.go lines 66-71): nil on a nil node, the next pointer
otherwise. -/
def nextGo (h : Heap T) : Option Nat → Option Nat
  | none => none
  | some i =>
    match hLookup h i with
    | none => none
    | some nd => nd.next

/-- Insert through a possibly nil handle (list.go lines 74-77): the
source returns the error built by errors.New on a nil receiver. -/
def insertList : Option (GoList T) → T → Except String (GoList T)
  | none, _ => Except.error "list is nil"
  | some s, v => Except.ok (insertGo s v)

/-- Append through a possibly nil handle (list.go lines 90-93). -/
def appendList : Option (GoList T) → T → Except String (GoList T)
  | none, _ => Except.error "list is nil"
  | some s, v => Except.ok (appendGo s v)

/-- Length (list.go lines 36-38). -/
def lengthGo (s : GoList T) : Int := s.length

/-- One mutating operation of the public interface. -/
inductive MutOp (T : Type) where
  | ins (v : T)
  | app (v : T)
  | del (v : T)
  | delHead
  | delTail
  deriving Repr

/-- Apply one mutating operation to a list state, keeping only the state
(the returned values are dropped). -/
def applyMut [DecidableEq T] [Inhabited T] (s : GoList T) : MutOp T → GoList T
  | MutOp.ins v => insertGo s v
  | MutOp.app v => appendGo s v
  | MutOp.del v => (deleteGo s v).2
  | MutOp.delHead => (deleteHeadGo s).2.2
  | MutOp.delTail => (deleteTailGo s).2.2

/-- Run a sequence of mutating operations from the empty list. -/
def runOps [DecidableEq T] [Inhabited T] (ops : List (MutOp T)) : GoList T :=
  ops.foldl applyMut (newList T)

/-- The id chain reachable from cur by next links, namely some list of node
ids when the walk reaches nil within the fuel, none otherwise. -/
def travIds (h : Heap T) : Option Nat → Nat → Option (List Nat)
  | none, _ => some []
  | some _, 0 => none
  | some i, fuel + 1 =>
    match hLookup h i with
    | none => none
    | some nd => (travIds h nd.next fuel).map (fun rest => i :: rest)

/-- The structural invariant of section 3 of the spec, phrased with the
executable traversal: next links from head reach nil after exactly length
steps, the last visited node is the tail, and head and tail are nil
exactly on the empty list. -/
def StructOK (s : GoList T) : Prop :=
  ∃ ids : List Nat,
    travIds s.heap s.head (s.heap.length + 1) = some ids ∧
    s.length = (ids.length : Int) ∧
    (s.head = none ↔ s.length = 0) ∧
    (s.length = 0 ↔ s.tail = none) ∧
    s.tail = ids.getLast?

/-- The value stored at node id i, if allocated. -/
def valAt (h : Heap T) (i : Nat) : Option T :=
  (hLookup h i).map ListNode.value

/-- The values stored at a list of node ids. -/
def valsOf (h : Heap T) (ids : List Nat) : List T :=
  ids.filterMap (valAt h)

/-!  Heap lemmas. -/

@[simp]
theorem hLookup_nil (i : Nat) : hLookup ([] : Heap T) i = none := rfl

@[simp]
theorem hLookup_cons (k : Nat) (nd : ListNode T) (h : Heap T) (i : Nat) :
    hLookup ((k, nd) :: h) i = if k = i then some nd else hLookup h i := rfl

theorem hSetNext_cons (k : Nat) (nd : ListNode T) (h : Heap T) (i : Nat)
    (x : Option Nat) :
    hSetNext ((k, nd) :: h) i x =
      (if k = i then (k, ListNode.mk nd.value x) else (k, nd)) :: hSetNext h i x := by
  by_cases hk : k = i <;> simp [hSetNext, hk]

theorem hLookup_setNext (h : Heap T) (i : Nat) (x : Option Nat) (j : Nat) :
    hLookup (hSetNext h i x) j =
      (hLookup h j).map (fun nd => if j = i then ListNode.mk nd.value x else nd) := by
  induction h with
  | nil => simp [hSetNext]
  | cons p rest ih =>
    obtain ⟨k, nd⟩ := p
    rw [hSetNext_cons]
    by_cases hki : k = i
    · subst hki
      by_cases hkj : k = j
      · subst hkj; simp
      · simp [hkj, ih]
    · by_cases hkj : k = j
      · subst hkj
        simp [hki]
      · simp [hki, hkj, ih]

theorem hLookup_setNext_other (h : Heap T) (i : Nat) (x : Option Nat) (j : Nat)
    (hne : j ≠ i) : hLookup (hSetNext h i x) j = hLookup h j := by
  rw [hLookup_setNext]
  cases hLookup h j <;> simp [hne]

theorem hLookup_setNext_self (h : Heap T) (i : Nat) (x : Option Nat)
    (nd : ListNode T) (hl : hLookup h i = some nd) :
    hLookup (hSetNext h i x) i = some (ListNode.mk nd.value x) := by
  rw [hLookup_setNext, hl]
  simp

@[simp]
theorem hKeys_setNext (h : Heap T) (i : Nat) (x : Option Nat) :
    hKeys (hSetNext h i x) = hKeys h := by
  induction h with
  | nil => rfl
  | cons p rest ih =>
    obtain ⟨k, nd⟩ := p
    by_cases hi : k = i <;> simp [hSetNext, hKeys, hi] at ih ⊢ <;>
      simpa [hSetNext, hKeys] using ih

@[simp]
theorem hKeys_cons (k : Nat) (nd : ListNode T) (h : Heap T) :
    hKeys ((k, nd) :: h) = k :: hKeys h := rfl

@[simp]
theorem length_setNext (h : Heap T) (i : Nat) (x : Option Nat) :
    (hSetNext h i x).length = h.length := by
  simp [hSetNext]

theorem mem_keys_of_lookup (h : Heap T) (i : Nat) (nd : ListNode T)
    (hl : hLookup h i = some nd) : i ∈ hKeys h := by
  induction h with
  | nil => simp [hLookup] at hl
  | cons p rest ih =>
    obtain ⟨k, nd2⟩ := p
    by_cases hk : k = i
    · subst hk; simp
    · simp only [hLookup_cons, if_neg hk] at hl
      simpa using Or.inr (ih hl)

theorem valAt_setNext (h : Heap T) (i : Nat) (x : Option Nat) (j : Nat) :
    valAt (hSetNext h i x) j = valAt h j := by
  unfold valAt
  rw [hLookup_setNext]
  cases hLookup h j with
  | none => rfl
  | some nd => by_cases hj : j = i <;> simp [hj]

theorem valAt_cons_other (k : Nat) (nd : ListNode T) (h : Heap T) (j : Nat)
    (hne : k ≠ j) : valAt ((k, nd) :: h) j = valAt h j := by
  simp [valAt, hne]

/-!  Chain segments: the separation-logic style list-segment predicate.
isSeg h a b ids states that starting from pointer a and following next
links through exactly the nodes listed in ids one reaches the pointer b. -/

def isSeg (h : Heap T) : Option Nat → Option Nat → List Nat → Prop
  | a, b, [] => a = b
  | a, b, i :: rest =>
    a = some i ∧ ∃ nd, hLookup h i = some nd ∧ isSeg h nd.next b rest

@[simp]
theorem isSeg_nil (h : Heap T) (a b : Option Nat) :
    isSeg h a b [] ↔ a = b := Iff.rfl

theorem isSeg_cons (h : Heap T) (a b : Option Nat) (i : Nat) (rest : List Nat) :
    isSeg h a b (i :: rest) ↔
      a = some i ∧ ∃ nd, hLookup h i = some nd ∧ isSeg h nd.next b rest :=
  Iff.rfl

theorem isSeg_append (h : Heap T) (a c : Option Nat) (xs ys : List Nat) :
    isSeg h a c (xs ++ ys) ↔ ∃ b, isSeg h a b xs ∧ isSeg h b c ys := by
  induction xs generalizing a with
  | nil =>
    simp only [List.nil_append, isSeg_nil]
    exact ⟨fun hs => ⟨a, rfl, hs⟩, fun ⟨b, hab, hs⟩ => hab ▸ hs⟩
  | cons i rest ih =>
    simp only [List.cons_append, isSeg_cons, ih]
    constructor
    · rintro ⟨ha, nd, hl, b, h1, h2⟩
      exact ⟨b, ⟨ha, nd, hl, h1⟩, h2⟩
    · rintro ⟨b, ⟨ha, nd, hl, h1⟩, h2⟩
      exact ⟨ha, nd, hl, b, h1, h2⟩

theorem isSeg_congr {h h2 : Heap T} {a b : Option Nat} {ids : List Nat}
    (hagree : ∀ i ∈ ids, hLookup h2 i = hLookup h i)
    (hs : isSeg h a b ids) : isSeg h2 a b ids := by
  induction ids generalizing a with
  | nil => exact hs
  | cons i rest ih =>
    obtain ⟨ha, nd, hl, hrest⟩ := hs
    exact ⟨ha, nd, (hagree i (by simp)).trans hl,
      ih (fun j hj => hagree j (by simp [hj])) hrest⟩

theorem isSeg_lookup {h : Heap T} {a b : Option Nat} {ids : List Nat}
    (hs : isSeg h a b ids) {i : Nat} (hi : i ∈ ids) :
    ∃ nd, hLookup h i = some nd := by
  induction ids generalizing a with
  | nil => simp at hi
  | cons j rest ih =>
    obtain ⟨ha, nd, hl, hrest⟩ := hs
    rcases List.mem_cons.mp hi with rfl | hi2
    · exact ⟨nd, hl⟩
    · exact ih hrest hi2

theorem isSeg_next_mem {h : Heap T} {a b : Option Nat} {ids : List Nat}
    (hs : isSeg h a b ids) {i : Nat} (hi : i ∈ ids) :
    ∃ nd, hLookup h i = some nd ∧
      (nd.next = b ∨ ∃ j ∈ ids, nd.next = some j) := by
  induction ids generalizing a with
  | nil => simp at hi
  | cons i0 rest ih =>
    obtain ⟨ha, nd0, hl0, hrest⟩ := hs
    rcases List.mem_cons.mp hi with rfl | hi2
    · refine ⟨nd0, hl0, ?_⟩
      cases rest with
      | nil => exact Or.inl hrest
      | cons j rest2 =>
        obtain ⟨hj, _⟩ := hrest
        exact Or.inr ⟨j, by simp, hj⟩
    · obtain ⟨nd, hl, hnext⟩ := ih hrest hi2
      refine ⟨nd, hl, ?_⟩
      rcases hnext with hb | ⟨j, hj, hjn⟩
      · exact Or.inl hb
      · exact Or.inr ⟨j, by simp [hj], hjn⟩

theorem isSeg_subset_keys {h : Heap T} {a b : Option Nat} {ids : List Nat}
    (hs : isSeg h a b ids) : ∀ i ∈ ids, i ∈ hKeys h := by
  intro i hi
  obtain ⟨nd, hl⟩ := isSeg_lookup hs hi
  exact mem_keys_of_lookup h i nd hl

theorem isSeg_length_le {h : Heap T} {a b : Option Nat} {ids : List Nat}
    (hs : isSeg h a b ids) (hnd : ids.Nodup) : ids.length ≤ h.length := by
  have hsub : ids ⊆ hKeys h := fun i hi => isSeg_subset_keys hs i hi
  have hle := (hnd.subperm hsub).length_le
  simpa [hKeys] using hle

theorem isSeg_none {h : Heap T} {b : Option Nat} {ids : List Nat}
    (hs : isSeg h none b ids) : ids = [] ∧ b = none := by
  cases ids with
  | nil => exact ⟨rfl, hs.symm⟩
  | cons i rest => exact absurd hs.1 (by simp)

theorem isSeg_head {h : Heap T} {a b : Option Nat} {i : Nat} {rest : List Nat}
    (hs : isSeg h a b (i :: rest)) : a = some i := hs.1

/-!  Values along a chain. -/

theorem valsOf_nil (h : Heap T) : valsOf h [] = [] := rfl

theorem valsOf_cons {h : Heap T} {i : Nat} {ids : List Nat} {nd : ListNode T}
    (hl : hLookup h i = some nd) :
    valsOf h (i :: ids) = nd.value :: valsOf h ids := by
  simp [valsOf, List.filterMap_cons, valAt, hl]

theorem valsOf_append (h : Heap T) (xs ys : List Nat) :
    valsOf h (xs ++ ys) = valsOf h xs ++ valsOf h ys := by
  simp [valsOf]

theorem valsOf_congr {h h2 : Heap T} {ids : List Nat}
    (hagree : ∀ i ∈ ids, valAt h2 i = valAt h i) :
    valsOf h2 ids = valsOf h ids := by
  induction ids with
  | nil => rfl
  | cons i rest ih =>
    simp only [valsOf, List.filterMap_cons] at ih ⊢
    rw [hagree i (by simp), ih (fun j hj => hagree j (by simp [hj]))]

theorem valsOf_length {h : Heap T} {a b : Option Nat} {ids : List Nat}
    (hs : isSeg h a b ids) : (valsOf h ids).length = ids.length := by
  induction ids generalizing a with
  | nil => rfl
  | cons i rest ih =>
    obtain ⟨ha, nd, hl, hrest⟩ := hs
    rw [valsOf_cons hl]
    simp [ih hrest]

/-!  The well-formedness invariant tying the four fields of a List value
together: some duplicate-free id chain runs from head to nil, the length
field counts it, the tail field is its last node, and the allocation
counter is ahead of every allocated id. -/

structure WFc (s : GoList T) (ids : List Nat) : Prop where
  seg   : isSeg s.heap s.head none ids
  nodup : ids.Nodup
  len   : s.length = (ids.length : Int)
  tl    : s.tail = ids.getLast?
  fresh : ∀ k ∈ hKeys s.heap, k < s.nodeCt

/-- A list state is well formed when some id chain witnesses it. -/
def WF (s : GoList T) : Prop := ∃ ids, WFc s ids

theorem WFc.ids_le_heap {s : GoList T} {ids : List Nat} (hw : WFc s ids) :
    ids.length ≤ s.heap.length :=
  isSeg_length_le hw.seg hw.nodup

/-!  Adequacy of the fueled traversals on well-formed chains. -/

theorem collectValues_of_seg {h : Heap T} {a : Option Nat} {ids : List Nat}
    (hs : isSeg h a none ids) (fuel : Nat) (hf : ids.length ≤ fuel) :
    collectValues h a fuel = valsOf h ids := by
  induction ids generalizing a fuel with
  | nil =>
    obtain rfl : a = none := hs
    cases fuel <;> simp [collectValues, valsOf_nil]
  | cons i rest ih =>
    obtain ⟨rfl, nd, hl, hrest⟩ := hs
    cases fuel with
    | zero => simp at hf
    | succ fuel =>
      rw [valsOf_cons hl]
      simp only [collectValues, hl]
      rw [ih hrest fuel (by simpa using hf)]

theorem travIds_of_seg {h : Heap T} {a : Option Nat} {ids : List Nat}
    (hs : isSeg h a none ids) (fuel : Nat) (hf : ids.length ≤ fuel) :
    travIds h a fuel = some ids := by
  induction ids generalizing a fuel with
  | nil =>
    obtain rfl : a = none := hs
    cases fuel <;> simp [travIds]
  | cons i rest ih =>
    obtain ⟨rfl, nd, hl, hrest⟩ := hs
    cases fuel with
    | zero => simp at hf
    | succ fuel =>
      simp only [travIds, hl]
      rw [ih hrest fuel (by simpa using hf)]
      rfl

theorem listValues_eq_valsOf {s : GoList T} {ids : List Nat}
    (hw : WFc s ids) : listValues s = valsOf s.heap ids :=
  collectValues_of_seg hw.seg (s.heap.length + 1)
    (Nat.le_succ_of_le hw.ids_le_heap)

/-- Well-formedness yields the section 3 invariants of the spec in their
traversal form. -/
theorem structOK_of_WFc {s : GoList T} {ids : List Nat} (hw : WFc s ids) :
    StructOK s := by
  refine ⟨ids, travIds_of_seg hw.seg (s.heap.length + 1)
    (Nat.le_succ_of_le hw.ids_le_heap), hw.len, ?_, ?_, hw.tl⟩
  · constructor
    · intro hh
      obtain ⟨rfl, _⟩ := isSeg_none (hh ▸ hw.seg)
      simp [hw.len]
    · intro hl
      have hids : ids = [] := by
        have := hw.len
        rw [hl] at this
        cases ids with
        | nil => rfl
        | cons i rest => simp at this; omega
      subst hids
      exact hw.seg
  · constructor
    · intro hl
      have hids : ids = [] := by
        have := hw.len
        rw [hl] at this
        cases ids with
        | nil => rfl
        | cons i rest => simp at this; omega
      subst hids
      simpa using hw.tl
    · intro ht
      have hlast := hw.tl
      rw [ht] at hlast
      have hids : ids = [] := List.getLast?_eq_none_iff.mp hlast.symm
      subst hids
      simp [hw.len]

/-!  Refinement lemmas: each source operation preserves well-formedness
and acts on the value sequence as the spec says. -/

theorem nodup_concat_of {α : Type} {l : List α} {a : α} (h : l.Nodup)
    (ha : a ∉ l) : (l ++ [a]).Nodup := by
  simp [List.nodup_append, h, ha]

theorem wfc_newList : WFc (newList T) [] := by
  refine ⟨?_, ?_, ?_, ?_, ?_⟩ <;> simp [newList, hKeys, isSeg]

theorem WFc.not_mem_ids {s : GoList T} {ids : List Nat} (hw : WFc s ids) :
    s.nodeCt ∉ ids := by
  intro hmem
  have := hw.fresh s.nodeCt (isSeg_subset_keys hw.seg s.nodeCt hmem)
  omega

theorem insertGo_wfc {s : GoList T} {ids : List Nat} (hw : WFc s ids) (v : T) :
    WFc (insertGo s v) (s.nodeCt :: ids) := by
  have hnid : s.nodeCt ∉ ids := hw.not_mem_ids
  have hagree : ∀ i ∈ ids,
      hLookup ((s.nodeCt, ListNode.mk v s.head) :: s.heap) i = hLookup s.heap i := by
    intro i hi
    have : s.nodeCt ≠ i := fun hh => hnid (hh ▸ hi)
    simp [this]
  refine ⟨?_, ?_, ?_, ?_, ?_⟩
  · refine ⟨rfl, ListNode.mk v s.head, by simp [insertGo], ?_⟩
    exact isSeg_congr hagree hw.seg
  · exact List.nodup_cons.mpr ⟨hnid, hw.nodup⟩
  · have := hw.len
    simp only [insertGo, List.length_cons]
    push_cast
    omega
  · show (if s.tail = none then some s.nodeCt else s.tail) = (s.nodeCt :: ids).getLast?
    by_cases ht : s.tail = none
    · have hids : ids = [] := List.getLast?_eq_none_iff.mp (hw.tl.symm.trans ht)
      rw [if_pos ht, hids]
      rfl
    · rw [if_neg ht]
      have hids : ids ≠ [] := by
        intro hh
        exact ht (hw.tl.trans (by rw [hh]; rfl))
      obtain ⟨q, rest, rfl⟩ := List.exists_cons_of_ne_nil hids
      rw [List.getLast?_cons_cons]
      exact hw.tl
  · intro k hk
    simp only [insertGo, hKeys_cons, List.mem_cons] at hk
    show k < s.nodeCt + 1
    rcases hk with rfl | hk
    · omega
    · have := hw.fresh k hk
      omega

theorem insertGo_vals {s : GoList T} {ids : List Nat} (hw : WFc s ids) (v : T) :
    listValues (insertGo s v) = v :: listValues s := by
  have hw2 := insertGo_wfc hw v
  rw [listValues_eq_valsOf hw2, listValues_eq_valsOf hw]
  have hl : hLookup (insertGo s v).heap s.nodeCt = some (ListNode.mk v s.head) := by
    simp [insertGo]
  rw [valsOf_cons hl]
  congr 1
  apply valsOf_congr
  intro i hi
  have hne : s.nodeCt ≠ i := fun hh => hw.not_mem_ids (hh ▸ hi)
  exact valAt_cons_other _ _ _ _ hne

theorem appendGo_tail_none {s : GoList T} (ht : s.tail = none) (v : T) :
    appendGo s v = GoList.mk ((s.nodeCt, ListNode.mk v none) :: s.heap)
      (some s.nodeCt) (some s.nodeCt) (s.length + 1) (s.nodeCt + 1) := by
  unfold appendGo
  rw [ht]

theorem appendGo_tail_some {s : GoList T} {t : Nat} (ht : s.tail = some t) (v : T) :
    appendGo s v = GoList.mk
      (hSetNext ((s.nodeCt, ListNode.mk v none) :: s.heap) t (some s.nodeCt))
      s.head (some s.nodeCt) (s.length + 1) (s.nodeCt + 1) := by
  unfold appendGo
  rw [ht]

theorem appendGo_wfc_vals {s : GoList T} {ids : List Nat} (hw : WFc s ids) (v : T) :
    WFc (appendGo s v) (ids ++ [s.nodeCt]) ∧
      listValues (appendGo s v) = listValues s ++ [v] := by
  have hnid : s.nodeCt ∉ ids := hw.not_mem_ids
  cases ht : s.tail with
  | none =>
    have hids : ids = [] := List.getLast?_eq_none_iff.mp (hw.tl.symm.trans ht)
    subst hids
    have hhead : s.head = none := by
      have := hw.seg
      simpa using this
    rw [appendGo_tail_none ht v]
    have hw2 : WFc (GoList.mk ((s.nodeCt, ListNode.mk v none) :: s.heap)
        (some s.nodeCt) (some s.nodeCt) (s.length + 1) (s.nodeCt + 1))
        ([] ++ [s.nodeCt]) := by
      refine ⟨?_, ?_, ?_, ?_, ?_⟩
      · exact ⟨rfl, ListNode.mk v none, by simp, rfl⟩
      · simp
      · have := hw.len
        simp at this
        simp [this]
      · rfl
      · intro k hk
        simp only [hKeys_cons, List.mem_cons] at hk
        show k < s.nodeCt + 1
        rcases hk with rfl | hk
        · omega
        · have := hw.fresh k hk
          omega
    refine ⟨hw2, ?_⟩
    rw [listValues_eq_valsOf hw2, listValues_eq_valsOf hw]
    simp [valsOf, valAt]
  | some t =>
    obtain ⟨init, rfl⟩ : ∃ init, ids = init ++ [t] :=
      List.getLast?_eq_some_iff.mp (hw.tl.symm.trans ht)
    have htmem : t ∈ init ++ [t] := by simp
    have htkey : t ∈ hKeys s.heap := isSeg_subset_keys hw.seg t htmem
    have htne : t ≠ s.nodeCt := by
      have := hw.fresh t htkey
      omega
    have htinit : t ∉ init := by
      have hnd2 := hw.nodup
      simp [List.nodup_append] at hnd2
      exact hnd2.2
    obtain ⟨b, hseg1, hseg2⟩ := (isSeg_append s.heap s.head none init [t]).mp hw.seg
    obtain ⟨rfl, nd, hndl, hnd⟩ := hseg2
    have hndnext : nd.next = none := hnd
    rw [appendGo_tail_some ht v]
    set h1 : Heap T := (s.nodeCt, ListNode.mk v none) :: s.heap with hh1
    set h2 : Heap T := hSetNext h1 t (some s.nodeCt) with hh2
    have hlook_old : ∀ i ∈ init ++ [t], i ≠ t → hLookup h2 i = hLookup s.heap i := by
      intro i hi hit
      rw [hh2, hLookup_setNext_other _ _ _ _ hit, hh1]
      have : s.nodeCt ≠ i := fun hh => hnid (hh ▸ hi)
      simp [this]
    have hlook_t : hLookup h2 t = some (ListNode.mk nd.value (some s.nodeCt)) := by
      rw [hh2]
      apply hLookup_setNext_self
      rw [hh1, hLookup_cons, if_neg (fun hh => htne hh.symm)]
      exact hndl
    have hlook_nid : hLookup h2 s.nodeCt = some (ListNode.mk v none) := by
      rw [hh2, hLookup_setNext_other _ _ _ _ (fun hh => htne hh.symm), hh1]
      simp
    have hsegK : isSeg h2 s.head none (init ++ [t, s.nodeCt]) := by
      apply (isSeg_append h2 s.head none init [t, s.nodeCt]).mpr
      refine ⟨some t, ?_, ?_⟩
      · apply isSeg_congr _ hseg1
        intro i hi
        have hit : i ≠ t := fun hh => htinit (hh ▸ hi)
        exact hlook_old i (by simp [hi]) hit
      · exact ⟨rfl, ListNode.mk nd.value (some s.nodeCt), hlook_t,
          rfl, ListNode.mk v none, hlook_nid, rfl⟩
    have hw2 : WFc (GoList.mk h2 s.head (some s.nodeCt) (s.length + 1) (s.nodeCt + 1))
        ((init ++ [t]) ++ [s.nodeCt]) := by
      refine ⟨?_, ?_, ?_, ?_, ?_⟩
      · show isSeg h2 s.head none ((init ++ [t]) ++ [s.nodeCt])
        rw [List.append_assoc]
        exact hsegK
      · exact nodup_concat_of hw.nodup hnid
      · have hlen := hw.len
        show s.length + 1 = _
        simp only [List.length_append, List.length_cons, List.length_nil] at hlen ⊢
        push_cast at hlen ⊢
        omega
      · show some s.nodeCt = ((init ++ [t]) ++ [s.nodeCt]).getLast?
        rw [List.getLast?_concat]
      · intro k hk
        show k < s.nodeCt + 1
        rw [hh2] at hk
        rw [hKeys_setNext] at hk
        rw [hh1] at hk
        simp only [hKeys_cons, List.mem_cons] at hk
        rcases hk with rfl | hk
        · omega
        · have := hw.fresh k hk
          omega
    refine ⟨hw2, ?_⟩
    rw [listValues_eq_valsOf hw2, listValues_eq_valsOf hw]
    show valsOf h2 ((init ++ [t]) ++ [s.nodeCt]) = _
    rw [valsOf_append]
    have hv1 : valsOf h2 (init ++ [t]) = valsOf s.heap (init ++ [t]) := by
      apply valsOf_congr
      intro i hi
      rw [hh2, valAt_setNext, hh1]
      apply valAt_cons_other
      exact fun hh => hnid (hh ▸ hi)
    rw [hv1]
    congr 1
    simp [valsOf, valAt, hlook_nid]

/-!  Correctness of the findParent loop on well-formed chains. -/

/-- The parent reported by the loop: the last element of the prefix walked
so far, or the incoming accumulator when that prefix is empty. -/
def lastOr (last : Option Nat) (pre : List Nat) : Option Nat :=
  match pre.getLast? with
  | none => last
  | some p => some p

theorem lastOr_nil (last : Option Nat) : lastOr last [] = last := rfl

theorem lastOr_none (pre : List Nat) : lastOr none pre = pre.getLast? := by
  cases hp : pre.getLast? <;> simp [lastOr, hp]

theorem lastOr_cons (last : Option Nat) (i : Nat) (pre : List Nat) :
    lastOr last (i :: pre) = lastOr (some i) pre := by
  cases pre with
  | nil => rfl
  | cons q rest =>
    cases hg : (q :: rest).getLast? with
    | none => exact absurd (List.getLast?_eq_none_iff.mp hg) (by simp)
    | some p => simp [lastOr, List.getLast?_cons_cons, hg]

theorem findParentAux_not_mem [DecidableEq T] {h : Heap T} {v : T}
    {cur : Option Nat} {ids : List Nat} (hs : isSeg h cur none ids)
    (hv : ∀ i ∈ ids, valAt h i ≠ some v) {fuel : Nat} (hf : ids.length ≤ fuel)
    (last : Option Nat) :
    findParentAux h v last cur fuel = (none, none) := by
  induction ids generalizing cur fuel last with
  | nil =>
    obtain rfl : cur = none := hs
    cases fuel <;> rfl
  | cons i rest ih =>
    obtain ⟨rfl, nd, hl, hrest⟩ := hs
    cases fuel with
    | zero => simp at hf
    | succ fuel =>
      have hne : nd.value ≠ v := by
        have hvi := hv i (by simp)
        simp [valAt, hl] at hvi
        exact hvi
      simp only [findParentAux, hl]
      rw [if_neg hne]
      exact ih hrest (fun j hj => hv j (by simp [hj])) (by simpa using hf) (some i)

theorem findParentAux_mem [DecidableEq T] {h : Heap T} {v : T}
    {cur b : Option Nat} {pre post : List Nat} {f : Nat}
    (hs : isSeg h cur b (pre ++ f :: post))
    (hpre : ∀ i ∈ pre, valAt h i ≠ some v)
    (hfv : valAt h f = some v)
    {fuel : Nat} (hfuel : (pre ++ f :: post).length ≤ fuel) (last : Option Nat) :
    findParentAux h v last cur fuel = (lastOr last pre, some f) := by
  induction pre generalizing cur fuel last with
  | nil =>
    obtain ⟨rfl, nd, hl, hrest⟩ := hs
    cases fuel with
    | zero => simp at hfuel
    | succ fuel =>
      have hvv : nd.value = v := by
        simp [valAt, hl] at hfv
        exact hfv
      simp only [findParentAux, hl]
      rw [if_pos hvv, lastOr_nil]
  | cons i pre ih =>
    obtain ⟨rfl, nd, hl, hrest⟩ := hs
    cases fuel with
    | zero => simp at hfuel
    | succ fuel =>
      have hne : nd.value ≠ v := by
        have hvi := hpre i (by simp)
        simp [valAt, hl] at hvi
        exact hvi
      simp only [findParentAux, hl]
      rw [if_neg hne]
      rw [ih hrest (fun j hj => hpre j (by simp [hj])) (by simpa using hfuel) (some i)]
      rw [lastOr_cons]

theorem exists_first_val [DecidableEq T] {h : Heap T} {cur b : Option Nat}
    {ids : List Nat} (hs : isSeg h cur b ids) {v : T}
    (hv : v ∈ valsOf h ids) :
    ∃ pre f post, ids = pre ++ f :: post ∧ (∀ i ∈ pre, valAt h i ≠ some v) ∧
      valAt h f = some v := by
  induction ids generalizing cur with
  | nil => simp [valsOf_nil] at hv
  | cons i rest ih =>
    obtain ⟨rfl, nd, hl, hrest⟩ := hs
    by_cases hiv : nd.value = v
    · exact ⟨[], i, rest, rfl, by simp, by simp [valAt, hl, hiv]⟩
    · have hv2 : v ∈ valsOf h rest := by
        rw [valsOf_cons hl] at hv
        rcases List.mem_cons.mp hv with rfl | hv2
        · exact absurd rfl hiv
        · exact hv2
      obtain ⟨pre, f, post, heq, hpre, hfv⟩ := ih hrest hv2
      refine ⟨i :: pre, f, post, by simp [heq], ?_, hfv⟩
      intro j hj
      rcases List.mem_cons.mp hj with rfl | hj2
      · simp [valAt, hl]
        exact hiv
      · exact hpre j hj2

theorem not_mem_valsOf [DecidableEq T] {h : Heap T} {ids : List Nat} {v : T}
    (hv : v ∉ valsOf h ids) : ∀ i ∈ ids, valAt h i ≠ some v := by
  intro i hi hvi
  apply hv
  have : valAt h i ∈ (ids.map (valAt h)) := List.mem_map_of_mem (valAt h) hi
  rw [hvi] at this
  have hmem : some v ∈ ids.map (valAt h) := this
  simp only [valsOf]
  rw [List.mem_filterMap]
  obtain ⟨j, hj, hjv⟩ := List.mem_map.mp hmem
  exact ⟨j, hj, hjv⟩

/-- findParent on a well-formed state with the value absent: the loop
reports (nil, nil). -/
theorem findParentGo_not_mem [DecidableEq T] {s : GoList T} {ids : List Nat}
    (hw : WFc s ids) {v : T} (hv : v ∉ valsOf s.heap ids) :
    findParentGo s v = (none, none) :=
  findParentAux_not_mem hw.seg (not_mem_valsOf hv)
    (Nat.le_succ_of_le hw.ids_le_heap) none

/-- findParent on a well-formed state with the value present at f after
prefix pre: the loop reports the last node of pre (nil when empty) and
f. -/
theorem findParentGo_mem [DecidableEq T] {s : GoList T} {ids : List Nat}
    (hw : WFc s ids) {v : T} {pre post : List Nat} {f : Nat}
    (heq : ids = pre ++ f :: post)
    (hpre : ∀ i ∈ pre, valAt s.heap i ≠ some v)
    (hfv : valAt s.heap f = some v) :
    findParentGo s v = (pre.getLast?, some f) := by
  have hs := hw.seg
  rw [heq] at hs
  have hfuel : (pre ++ f :: post).length ≤ s.heap.length + 1 := by
    rw [← heq]
    exact Nat.le_succ_of_le hw.ids_le_heap
  have hres := findParentAux_mem hs hpre hfv hfuel none
  rw [lastOr_none] at hres
  exact hres

theorem isSeg_start_eq {h : Heap T} {a : Option Nat} {ids : List Nat}
    (hs : isSeg h a none ids) : a = ids.head? := by
  cases ids with
  | nil => exact hs
  | cons q rest => exact hs.1

theorem mem_valsOf {h : Heap T} {ids : List Nat} {v : T}
    (hv : v ∈ valsOf h ids) : ∃ i ∈ ids, valAt h i = some v := by
  simp only [valsOf] at hv
  obtain ⟨i, hi, hvi⟩ := List.mem_filterMap.mp hv
  exact ⟨i, hi, hvi⟩

theorem not_mem_valsOf_iff {h : Heap T} {ids : List Nat} {v : T} :
    v ∉ valsOf h ids ↔ ∀ i ∈ ids, valAt h i ≠ some v := by
  constructor
  · intro hv i hi hvi
    apply hv
    simp only [valsOf]
    exact List.mem_filterMap.mpr ⟨i, hi, hvi⟩
  · intro hall hv
    obtain ⟨i, hi, hvi⟩ := mem_valsOf hv
    exact hall i hi hvi

/-- Delete on a well-formed state not holding the value: false and no
mutation at all. -/
theorem deleteGo_not_found [DecidableEq T] {s : GoList T} {ids : List Nat}
    (hw : WFc s ids) {v : T} (hv : v ∉ valsOf s.heap ids) :
    deleteGo s v = (false, s) := by
  have h1 := findParentGo_not_mem hw hv
  simp only [deleteGo, h1]

/-- Delete on a well-formed state whose chain holds the value first at
node f, after the prefix pre: it returns true, unlinks exactly f, and the
remaining chain is pre followed by post with all values unchanged. -/
theorem deleteGo_found [DecidableEq T] {s : GoList T} {pre post : List Nat}
    {f : Nat} {v : T} (hw : WFc s (pre ++ f :: post))
    (hpre : ∀ i ∈ pre, valAt s.heap i ≠ some v)
    (hfv : valAt s.heap f = some v) :
    ∃ s2, deleteGo s v = (true, s2) ∧ WFc s2 (pre ++ post) ∧
      listValues s2 = valsOf s.heap pre ++ valsOf s.heap post := by
  have hfp := findParentGo_mem hw rfl hpre hfv
  obtain ⟨b, hsegPre, hsegF⟩ :=
    (isSeg_append s.heap s.head none pre (f :: post)).mp hw.seg
  obtain ⟨hb, nd, hndl, hsegPost⟩ := hsegF
  subst hb
  have hfNext : Option.bind (hLookup s.heap f) ListNode.next = post.head? := by
    rw [hndl]
    exact isSeg_start_eq hsegPost
  have hsegPost2 : isSeg s.heap post.head? none post := by
    have hcopy := hsegPost
    rwa [isSeg_start_eq hsegPost] at hcopy
  have hmid := List.nodup_middle.mp hw.nodup
  have hfnotin : f ∉ pre ++ post := (List.nodup_cons.mp hmid).1
  have hfpre : f ∉ pre := fun hh => hfnotin (List.mem_append.mpr (Or.inl hh))
  have hfpost : f ∉ post := fun hh => hfnotin (List.mem_append.mpr (Or.inr hh))
  have hnodup2 : (pre ++ post).Nodup := (List.nodup_cons.mp hmid).2
  have htl := hw.tl
  rw [List.getLast?_append_cons] at htl
  have htail_pos : post = [] → s.tail = some f := by
    intro hp
    rw [hp] at htl
    exact htl
  have htail_neg : post ≠ [] → s.tail = post.getLast? ∧ s.tail ≠ some f := by
    intro hp
    obtain ⟨q, rest, rfl⟩ := List.exists_cons_of_ne_nil hp
    rw [List.getLast?_cons_cons] at htl
    refine ⟨htl, ?_⟩
    intro hbad
    rw [hbad] at htl
    have hfmem : f ∈ q :: rest := by
      obtain ⟨l2, hl2⟩ := List.getLast?_eq_some_iff.mp htl.symm
      rw [hl2]
      simp
    exact hfpost hfmem
  rcases List.eq_nil_or_concat pre with rfl | ⟨pp, p, rfl⟩
  · -- f is the head node: the parent is nil and head moves to f.next
    have hheadf : s.head = some f := hw.seg.1
    have hw2 : WFc (GoList.mk s.heap post.head?
        (if s.tail = some f then none else s.tail) (s.length - 1) s.nodeCt)
        ([] ++ post) := by
      refine ⟨?_, ?_, ?_, ?_, ?_⟩
      · simpa using hsegPost2
      · simpa using hnodup2
      · have hlen := hw.len
        simp only [List.nil_append, List.length_cons] at hlen ⊢
        push_cast at hlen ⊢
        omega
      · show (if s.tail = some f then none else s.tail) = ([] ++ post).getLast?
        cases hpc : post with
        | nil => rw [if_pos (htail_pos hpc)]; rfl
        | cons q rest =>
          obtain ⟨heq2, hne2⟩ := htail_neg (by rw [hpc]; simp)
          rw [if_neg hne2, List.nil_append, ← hpc]
          exact heq2
      · exact hw.fresh
    refine ⟨_, ?_, hw2, ?_⟩
    · simp only [deleteGo, hfp]
      rw [hfNext]
      simp [hheadf]
    · rw [listValues_eq_valsOf hw2]
      simp [valsOf_append, valsOf_nil]
  · -- f has a parent p, the last node of the nonempty prefix
    simp only [List.concat_eq_append] at *
    have hplast : (pp ++ [p]).getLast? = some p := List.getLast?_concat pp
    rw [hplast] at hfp
    have hpmem : p ∈ pp ++ [p] := by simp
    have hpf : p ≠ f := fun hh => hfpre (hh ▸ hpmem)
    have hprene : (pp ++ [p] : List Nat) ≠ [] := by simp
    obtain ⟨q, qtl, hq⟩ := List.exists_cons_of_ne_nil hprene
    have hqmem : q ∈ pp ++ [p] := by rw [hq]; simp
    have hheadq : s.head = some q := by
      have hcopy := hsegPre
      rw [hq] at hcopy
      exact hcopy.1
    have hheadne : s.head ≠ some f := by
      rw [hheadq]
      intro hbad
      have : q = f := by injection hbad
      exact hfpre (this ▸ hqmem)
    have hpreNodup : (pp ++ [p] : List Nat).Nodup := hw.nodup.of_append_left
    have hpnotpp : p ∉ pp := by
      have hnd2 := hpreNodup
      simp [List.nodup_append] at hnd2
      exact hnd2.2
    have hpnotpost : p ∉ post := by
      intro hh
      exact List.disjoint_of_nodup_append hnodup2 hpmem hh
    obtain ⟨b2, hsegPp, hsegP⟩ :=
      (isSeg_append s.heap s.head (some f) pp [p]).mp hsegPre
    obtain ⟨hb2, ndp, hndpl, hsegPnil⟩ := hsegP
    subst hb2
    set h1 : Heap T := hSetNext s.heap p post.head? with hh1
    have hlookP : hLookup h1 p = some (ListNode.mk ndp.value post.head?) := by
      rw [hh1]
      exact hLookup_setNext_self s.heap p post.head? ndp hndpl
    have hagree1 : ∀ i ∈ pp, hLookup h1 i = hLookup s.heap i := by
      intro i hi
      rw [hh1]
      exact hLookup_setNext_other _ _ _ _ (fun hh => hpnotpp (hh ▸ hi))
    have hagree2 : ∀ i ∈ post, hLookup h1 i = hLookup s.heap i := by
      intro i hi
      rw [hh1]
      exact hLookup_setNext_other _ _ _ _ (fun hh => hpnotpost (hh ▸ hi))
    have segA : isSeg h1 s.head (some p) pp := isSeg_congr hagree1 hsegPp
    have segC : isSeg h1 post.head? none post := isSeg_congr hagree2 hsegPost2
    have segB : isSeg h1 (some p) none (p :: post) :=
      ⟨rfl, ListNode.mk ndp.value post.head?, hlookP, segC⟩
    have segTotal : isSeg h1 s.head none (pp ++ p :: post) :=
      (isSeg_append h1 s.head none pp (p :: post)).mpr ⟨some p, segA, segB⟩
    have hw2 : WFc (GoList.mk h1 s.head
        (if s.tail = some f then some p else s.tail) (s.length - 1) s.nodeCt)
        ((pp ++ [p]) ++ post) := by
      refine ⟨?_, ?_, ?_, ?_, ?_⟩
      · show isSeg h1 s.head none ((pp ++ [p]) ++ post)
        rw [List.append_assoc]
        exact segTotal
      · exact hnodup2
      · have hlen := hw.len
        simp only [List.length_append, List.length_cons, List.length_nil] at hlen ⊢
        push_cast at hlen ⊢
        omega
      · show (if s.tail = some f then some p else s.tail) =
          ((pp ++ [p]) ++ post).getLast?
        cases hpc : post with
        | nil =>
          rw [if_pos (htail_pos hpc), List.append_nil]
          exact hplast.symm
        | cons qq rest =>
          obtain ⟨heq2, hne2⟩ := htail_neg (by rw [hpc]; simp)
          rw [if_neg hne2, List.getLast?_append_of_ne_nil _ (by simp), ← hpc]
          exact heq2
      · intro k hk
        rw [hh1, hKeys_setNext] at hk
        exact hw.fresh k hk
    refine ⟨_, ?_, hw2, ?_⟩
    · simp only [deleteGo, hfp]
      rw [hfNext]
      simp [hheadne, hh1]
    · rw [listValues_eq_valsOf hw2]
      rw [valsOf_append]
      have hc1 : valsOf h1 (pp ++ [p]) = valsOf s.heap (pp ++ [p]) := by
        apply valsOf_congr
        intro i hi
        rw [hh1]
        exact valAt_setNext s.heap p post.head? i
      have hc2 : valsOf h1 post = valsOf s.heap post := by
        apply valsOf_congr
        intro i hi
        rw [hh1]
        exact valAt_setNext s.heap p post.head? i
      rw [hc1, hc2]

/-- Delete on any well-formed state: the result is well formed, the value
sequence loses exactly its first occurrence of v, and true is returned
exactly when v was present. -/
theorem deleteGo_spec [DecidableEq T] {s : GoList T} {ids : List Nat}
    (hw : WFc s ids) (v : T) :
    ∃ ids2, WFc (deleteGo s v).2 ids2 ∧
      listValues (deleteGo s v).2 = (listValues s).erase v ∧
      ((deleteGo s v).1 = true ↔ v ∈ listValues s) := by
  by_cases hv : v ∈ valsOf s.heap ids
  · obtain ⟨pre, f, post, heq, hpre, hfv⟩ := exists_first_val hw.seg hv
    subst heq
    obtain ⟨s2, hdel, hw2, hvals⟩ := deleteGo_found hw hpre hfv
    rw [hdel]
    obtain ⟨nd, hndl, hndv⟩ : ∃ nd, hLookup s.heap f = some nd ∧ nd.value = v := by
      unfold valAt at hfv
      cases hl : hLookup s.heap f with
      | none => rw [hl] at hfv; simp at hfv
      | some nd =>
        rw [hl] at hfv
        simp at hfv
        exact ⟨nd, rfl, hfv⟩
    have hlv : listValues s = valsOf s.heap pre ++ v :: valsOf s.heap post := by
      rw [listValues_eq_valsOf hw, valsOf_append, valsOf_cons hndl, hndv]
    have hvpre : v ∉ valsOf s.heap pre := not_mem_valsOf_iff.mpr hpre
    refine ⟨pre ++ post, hw2, ?_, ?_⟩
    · rw [hvals, hlv, List.erase_append_right _ hvpre, List.erase_cons_head]
    · simp only [hlv]
      simp
  · rw [deleteGo_not_found hw hv]
    have hlv : v ∉ listValues s := by
      rw [listValues_eq_valsOf hw]
      exact hv
    refine ⟨ids, hw, ?_, ?_⟩
    · rw [List.erase_of_not_mem hlv]
    · simp [hlv]

/-- DeleteHead on a well-formed empty list: the zero value, false, and no
mutation. -/
theorem deleteHeadGo_empty [Inhabited T] {s : GoList T}
    (hw : WFc s []) : deleteHeadGo s = (default, false, s) := by
  have hhead : s.head = none := hw.seg
  simp only [deleteHeadGo, hhead]

/-- DeleteHead on a well-formed nonempty list: the head value and true,
with the head node unlinked and everything else untouched. -/
theorem deleteHeadGo_cons [Inhabited T] {s : GoList T} {i : Nat}
    {rest : List Nat} (hw : WFc s (i :: rest)) :
    ∃ nd, hLookup s.heap i = some nd ∧
      ∃ s2, deleteHeadGo s = (nd.value, true, s2) ∧ WFc s2 rest ∧
        listValues s2 = valsOf s.heap rest := by
  obtain ⟨hhead, nd, hl, hrest⟩ := hw.seg
  have hw2 : WFc (GoList.mk s.heap nd.next
      (if nd.next = none then none else s.tail) (s.length - 1) s.nodeCt) rest := by
    refine ⟨hrest, (List.nodup_cons.mp hw.nodup).2, ?_, ?_, hw.fresh⟩
    · have hlen := hw.len
      simp only [List.length_cons] at hlen ⊢
      push_cast at hlen ⊢
      omega
    · show (if nd.next = none then none else s.tail) = rest.getLast?
      cases hrc : rest with
      | nil =>
        have hnone : nd.next = none := by rw [hrc] at hrest; exact hrest
        rw [if_pos hnone]
        rfl
      | cons q rest2 =>
        have hsome : nd.next = some q := by rw [hrc] at hrest; exact hrest.1
        rw [if_neg (by simp [hsome])]
        have htl2 := hw.tl
        rw [hrc, List.getLast?_cons_cons] at htl2
        exact htl2
  refine ⟨nd, hl, GoList.mk s.heap nd.next
    (if nd.next = none then none else s.tail) (s.length - 1) s.nodeCt, ?_, hw2, ?_⟩
  · simp only [deleteHeadGo, hhead, hl]
  · exact listValues_eq_valsOf hw2

/-!  Correctness of the parent-of-tail scan of DeleteTail. -/

theorem findTailParentAux_no_match {h : Heap T} {tl cur : Option Nat}
    {ids : List Nat} (hs : isSeg h cur none ids)
    (hno : ∀ i ∈ ids, ∀ nd, hLookup h i = some nd → nd.next ≠ tl)
    {fuel : Nat} (hf : ids.length ≤ fuel) (parent : Option Nat) :
    findTailParentAux h tl cur parent fuel = parent := by
  induction ids generalizing cur fuel parent with
  | nil =>
    obtain rfl : cur = none := hs
    cases fuel <;> rfl
  | cons i rest ih =>
    obtain ⟨rfl, nd, hl, hrest⟩ := hs
    cases fuel with
    | zero => simp at hf
    | succ fuel =>
      simp only [findTailParentAux, hl]
      rw [if_neg (hno i (by simp) nd hl)]
      exact ih hrest (fun j hj => hno j (by simp [hj])) (by simpa using hf) parent

theorem findTailParentAux_match {h : Heap T} {tl cur : Option Nat}
    {pre post : List Nat} {p : Nat}
    (hs : isSeg h cur none (pre ++ p :: post))
    (hpreno : ∀ i ∈ pre, ∀ nd, hLookup h i = some nd → nd.next ≠ tl)
    (hpostno : ∀ i ∈ post, ∀ nd, hLookup h i = some nd → nd.next ≠ tl)
    {ndp : ListNode T} (hpl : hLookup h p = some ndp) (hmatch : ndp.next = tl)
    {fuel : Nat} (hf : (pre ++ p :: post).length ≤ fuel) (parent : Option Nat) :
    findTailParentAux h tl cur parent fuel = some p := by
  induction pre generalizing cur fuel parent with
  | nil =>
    obtain ⟨rfl, nd, hl, hrest⟩ := hs
    cases fuel with
    | zero => simp at hf
    | succ fuel =>
      have hnd : nd = ndp := by
        rw [hl] at hpl
        injection hpl
      subst hnd
      simp only [findTailParentAux, hl]
      rw [if_pos hmatch]
      exact findTailParentAux_no_match hrest hpostno (by simpa using hf) (some p)
  | cons i pre ih =>
    obtain ⟨rfl, nd, hl, hrest⟩ := hs
    cases fuel with
    | zero => simp at hf
    | succ fuel =>
      simp only [findTailParentAux, hl]
      rw [if_neg (hpreno i (by simp) nd hl)]
      exact ih hrest (fun j hj => hpreno j (by simp [hj])) (by simpa using hf) parent

/-- DeleteTail on a well-formed empty list: the zero value, false, and no
mutation. -/
theorem deleteTailGo_empty [Inhabited T] {s : GoList T}
    (hw : WFc s []) : deleteTailGo s = (default, false, s) := by
  have htail : s.tail = none := by
    have := hw.tl
    simpa using this
  simp only [deleteTailGo, htail]

/-- DeleteTail on a well-formed nonempty list: the tail value and true,
with the tail node unlinked, the predecessor (if any) becoming the new
tail, and the remaining values unchanged. -/
theorem deleteTailGo_nonempty [Inhabited T] {s : GoList T} {init : List Nat}
    {t : Nat} (hw : WFc s (init ++ [t])) :
    ∃ ndt, hLookup s.heap t = some ndt ∧
      ∃ s2, deleteTailGo s = (ndt.value, true, s2) ∧ WFc s2 init ∧
        listValues s2 = valsOf s.heap init := by
  have htail : s.tail = some t := hw.tl.trans (List.getLast?_concat init)
  obtain ⟨b, hsegInit, hsegT⟩ :=
    (isSeg_append s.heap s.head none init [t]).mp hw.seg
  obtain ⟨hb, ndt, hndtl, hsegTnil⟩ := hsegT
  subst hb
  have hndtnext : ndt.next = none := hsegTnil
  have htnotinit : t ∉ init := by
    have hnd2 := hw.nodup
    simp [List.nodup_append] at hnd2
    exact hnd2.2
  have htno : ∀ nd2, hLookup s.heap t = some nd2 → nd2.next ≠ some t := by
    intro nd2 hl2
    rw [hndtl] at hl2
    injection hl2 with hl2
    subst hl2
    simp [hndtnext]
  rcases List.eq_nil_or_concat init with rfl | ⟨pp, p, hinit⟩
  · -- single node: no parent, the list collapses to empty
    have hscan : findTailParentAux s.heap (some t) s.head none
        (s.heap.length + 1) = none := by
      apply findTailParentAux_no_match hw.seg
      · intro i hi nd2 hl2
        simp at hi
        subst hi
        exact htno nd2 hl2
      · exact Nat.le_succ_of_le hw.ids_le_heap
    have hw2 : WFc (GoList.mk s.heap none none (s.length - 1) s.nodeCt) [] := by
      refine ⟨rfl, by simp, ?_, rfl, hw.fresh⟩
      have hlen := hw.len
      simp at hlen ⊢
      omega
    refine ⟨ndt, hndtl, GoList.mk s.heap none none (s.length - 1) s.nodeCt,
      ?_, hw2, ?_⟩
    · simp only [deleteTailGo, htail, hndtl, hscan]
    · rw [listValues_eq_valsOf hw2]
  · -- the predecessor p of the tail is found by the scan
    subst hinit
    simp only [List.concat_eq_append] at *
    have hppnodup : (pp ++ [p] ++ [t] : List Nat).Nodup := hw.nodup
    have hpmem : p ∈ pp ++ [p] := by simp
    have hpt : p ≠ t := fun hh => htnotinit (hh ▸ hpmem)
    obtain ⟨b2, hsegPp, hsegP⟩ :=
      (isSeg_append s.heap s.head (some t) pp [p]).mp hsegInit
    obtain ⟨hb2, ndp, hndpl, hsegPnil⟩ := hsegP
    subst hb2
    have hndpnext : ndp.next = some t := hsegPnil
    have hppno : ∀ i ∈ pp, ∀ nd2, hLookup s.heap i = some nd2 →
        nd2.next ≠ some t := by
      intro i hi nd2 hl2 hbad
      obtain ⟨nd3, hl3, hnext3⟩ := isSeg_next_mem hsegPp hi
      rw [hl2] at hl3
      injection hl3 with hl3
      subst hl3
      rcases hnext3 with hp | ⟨j, hj, hjn⟩
      · rw [hbad] at hp
        injection hp with hh
        exact hpt hh.symm
      · rw [hbad] at hjn
        injection hjn with hh
        subst hh
        exact htnotinit (by simp [hj])
    have hchain : isSeg s.heap s.head none (pp ++ p :: [t]) := by
      have hcopy := hw.seg
      rwa [List.append_assoc] at hcopy
    have hscan : findTailParentAux s.heap (some t) s.head none
        (s.heap.length + 1) = some p := by
      apply findTailParentAux_match hchain hppno _ hndpl hndpnext
      · have hle := hw.ids_le_heap
        have hlen : (pp ++ p :: [t]).length = (pp ++ [p] ++ [t]).length := by
          simp
        rw [hlen]
        exact Nat.le_succ_of_le hle
      · intro i hi nd2 hl2
        simp at hi
        subst hi
        exact htno nd2 hl2
    set h1 : Heap T := hSetNext s.heap p none with hh1
    have hpnotpp : p ∉ pp := by
      have hnd2 : (pp ++ [p] : List Nat).Nodup := hppnodup.of_append_left
      simp [List.nodup_append] at hnd2
      exact hnd2.2
    have hagree1 : ∀ i ∈ pp, hLookup h1 i = hLookup s.heap i := by
      intro i hi
      rw [hh1]
      exact hLookup_setNext_other _ _ _ _ (fun hh => hpnotpp (hh ▸ hi))
    have hlookP : hLookup h1 p = some (ListNode.mk ndp.value none) := by
      rw [hh1]
      exact hLookup_setNext_self s.heap p none ndp hndpl
    have segA : isSeg h1 s.head (some p) pp := isSeg_congr hagree1 hsegPp
    have segB : isSeg h1 (some p) none [p] :=
      ⟨rfl, ListNode.mk ndp.value none, hlookP, rfl⟩
    have segTotal : isSeg h1 s.head none (pp ++ [p]) :=
      (isSeg_append h1 s.head none pp [p]).mpr ⟨some p, segA, segB⟩
    have hw2 : WFc (GoList.mk h1 s.head (some p) (s.length - 1) s.nodeCt)
        (pp ++ [p]) := by
      refine ⟨segTotal, hppnodup.of_append_left, ?_, ?_, ?_⟩
      · have hlen := hw.len
        simp only [List.length_append, List.length_cons, List.length_nil]
          at hlen ⊢
        push_cast at hlen ⊢
        omega
      · exact (List.getLast?_concat pp).symm
      · intro k hk
        rw [hh1, hKeys_setNext] at hk
        exact hw.fresh k hk
    refine ⟨ndt, hndtl, GoList.mk h1 s.head (some p) (s.length - 1) s.nodeCt,
      ?_, hw2, ?_⟩
    · simp only [deleteTailGo, htail, hndtl, hscan, hh1]
    · rw [listValues_eq_valsOf hw2]
      apply valsOf_congr
      intro i hi
      rw [hh1]
      exact valAt_setNext s.heap p none i

/-!  Every state reachable through the public mutating interface is well
formed. -/

theorem applyMut_wf [DecidableEq T] [Inhabited T] {s : GoList T}
    (hw : WF s) (op : MutOp T) : WF (applyMut s op) := by
  obtain ⟨ids, hwc⟩ := hw
  cases op with
  | ins v => exact ⟨_, insertGo_wfc hwc v⟩
  | app v => exact ⟨_, (appendGo_wfc_vals hwc v).1⟩
  | del v =>
    obtain ⟨ids2, hw2, _, _⟩ := deleteGo_spec hwc v
    exact ⟨ids2, hw2⟩
  | delHead =>
    show WF (deleteHeadGo s).2.2
    cases ids with
    | nil =>
      rw [deleteHeadGo_empty hwc]
      exact ⟨[], hwc⟩
    | cons i rest =>
      obtain ⟨nd, hl, s2, heq, hw2, _⟩ := deleteHeadGo_cons hwc
      rw [heq]
      exact ⟨rest, hw2⟩
  | delTail =>
    show WF (deleteTailGo s).2.2
    rcases List.eq_nil_or_concat ids with rfl | ⟨init, t, rfl⟩
    · rw [deleteTailGo_empty hwc]
      exact ⟨[], hwc⟩
    · rw [List.concat_eq_append] at hwc
      obtain ⟨ndt, hndtl, s2, heq, hw2, _⟩ := deleteTailGo_nonempty hwc
      rw [heq]
      exact ⟨init, hw2⟩

theorem foldl_applyMut_wf [DecidableEq T] [Inhabited T]
    (ops : List (MutOp T)) : ∀ (s : GoList T), WF s → WF (ops.foldl applyMut s) := by
  induction ops with
  | nil => intro s hs; exact hs
  | cons op rest ih => intro s hs; exact ih _ (applyMut_wf hs op)

theorem runOps_wf [DecidableEq T] [Inhabited T] (ops : List (MutOp T)) :
    WF (runOps ops) :=
  foldl_applyMut_wf ops (newList T) ⟨[], wfc_newList⟩

/-- The ForEach loop body never advances its cursor, so from a non-nil
node the loop state after any number of iterations is still running. -/
theorem forEachRun_some_none (h : Heap T) (i : Nat) :
    ∀ (fuel : Nat) (acc : List T), forEachRun h (some i) fuel acc = none := by
  intro fuel
  induction fuel with
  | zero => intro acc; rfl
  | succ fuel ih =>
    intro acc
    simp only [forEachRun]
    cases hl : hLookup h i with
    | none => rfl
    | some nd => exact ih (nd.value :: acc)

theorem foldl_ins_vals [DecidableEq T] [Inhabited T] (vs : List T) :
    ∀ (s : GoList T), WF s →
      listValues ((vs.map MutOp.ins).foldl applyMut s)
        = vs.reverse ++ listValues s := by
  induction vs with
  | nil => intro s hs; simp
  | cons v vs ih =>
    intro s hs
    obtain ⟨ids, hwc⟩ := hs
    have h1 : ((v :: vs).map MutOp.ins).foldl applyMut s
        = (vs.map MutOp.ins).foldl applyMut (insertGo s v) := rfl
    rw [h1, ih _ ⟨_, insertGo_wfc hwc v⟩, insertGo_vals hwc v]
    simp

theorem foldl_app_vals [DecidableEq T] [Inhabited T] (vs : List T) :
    ∀ (s : GoList T), WF s →
      listValues ((vs.map MutOp.app).foldl applyMut s)
        = listValues s ++ vs := by
  induction vs with
  | nil => intro s hs; simp
  | cons v vs ih =>
    intro s hs
    obtain ⟨ids, hwc⟩ := hs
    have h1 : ((v :: vs).map MutOp.app).foldl applyMut s
        = (vs.map MutOp.app).foldl applyMut (appendGo s v) := rfl
    obtain ⟨hw2, hvals⟩ := appendGo_wfc_vals hwc v
    rw [h1, ih _ ⟨_, hw2⟩, hvals]
    simp

theorem appendGo_length (s : GoList T) (v : T) :
    (appendGo s v).length = s.length + 1 := by
  cases ht : s.tail with
  | none => rw [appendGo_tail_none ht]
  | some t => rw [appendGo_tail_some ht]

theorem listValues_newList : listValues (newList T) = [] := rfl

/-- The data part of the String rendering: one leading space before each
element, as produced by the concatenation loop of the source. -/
def renderData (toStr : T → String) : List T → String
  | [] => ""
  | v :: vs => " " ++ toStr v ++ renderData toStr vs

theorem foldl_render (toStr : T → String) (l : List T) :
    ∀ init : String, l.foldl (fun acc v => acc ++ " " ++ toStr v) init
      = init ++ renderData toStr l := by
  induction l with
  | nil => intro init; simp [renderData]
  | cons v vs ih =>
    intro init
    simp only [List.foldl_cons, renderData]
    rw [ih]
    simp [String.append_assoc]

/-!  The claims. -/

/-- C1: the spec demands that ForEach invoke the visitor once per element
in head-to-tail order and terminate after the last element.  The source
loop (list.go lines 206-209) never advances currentNode, so on any list
whose head is non-nil the loop is still running after any number of
iterations: the embedded loop returns none (still running) for every
iteration bound.  The claim is right about the intended contract and the
code is wrong; the spec itself records this source behavior as a
defect. -/
theorem c1_forEach_never_terminates (T : Type) (s : GoList T) (i : Nat)
    (hhead : s.head = some i) (fuel : Nat) : forEachGo s fuel = none := by
  unfold forEachGo
  rw [hhead]
  exact forEachRun_some_none s.heap i fuel []

/-- Witness for C1: on the one-element list built by Insert 1 the ForEach
loop is still running after 100 iterations. -/
theorem c1_forEach_never_terminates_witness :
    forEachGo (runOps [MutOp.ins (1 : Int)]) 100 = none :=
  c1_forEach_never_terminates Int (runOps [MutOp.ins (1 : Int)]) 0 rfl 100

/-- C2: the spec demands that Find through an absent handle return absent
rather than crash.  The source (list.go line 128) dereferences the
receiver to take the read lock before any nil check can run, so Find on a
nil handle panics: the embedded Find reports the nil-dereference crash,
not an absent result.  The nil check inside findParent (line 110) is
unreachable from Find, which shows the nil tolerance was intended. -/
theorem c2_find_nil_handle_panics :
    findList (none : Option (GoList Int)) 0 = Except.error GoCrash.nilDeref := rfl

/-- C3: after any sequence of Insert, Append, Delete, DeleteHead and
DeleteTail operations from the empty list, the length field equals the
number of nodes reachable from head, head is nil exactly when the length
is zero exactly when tail is nil, and the traversal from head reaches nil
after exactly length steps with the last visited node equal to tail. -/
theorem c3_invariants_preserved (T : Type) [DecidableEq T] [Inhabited T]
    (ops : List (MutOp T)) : StructOK (runOps ops) := by
  obtain ⟨ids, hwc⟩ := runOps_wf ops
  exact structOK_of_WFc hwc

/-- C5: Insert of v1, ..., vn in that order from the empty list yields
traversal order vn, ..., v1, and Append of v1, ..., vn yields traversal
order v1, ..., vn. -/
theorem c5_insert_append_order (T : Type) [DecidableEq T] [Inhabited T]
    (vs : List T) :
    listValues (runOps (vs.map MutOp.ins)) = vs.reverse ∧
    listValues (runOps (vs.map MutOp.app)) = vs := by
  constructor
  · rw [runOps, foldl_ins_vals vs (newList T) ⟨[], wfc_newList⟩,
      listValues_newList, List.append_nil]
  · rw [runOps, foldl_app_vals vs (newList T) ⟨[], wfc_newList⟩,
      listValues_newList, List.nil_append]

/-- C7: Insert and Append through a nil handle fail with the invalid
handle error and through a present handle always succeed, each increasing
the length field by exactly one. -/
theorem c7_invalid_handle (T : Type) [DecidableEq T] [Inhabited T] (v : T) :
    insertList (none : Option (GoList T)) v = Except.error "list is nil" ∧
    appendList (none : Option (GoList T)) v = Except.error "list is nil" ∧
    ∀ s : GoList T,
      insertList (some s) v = Except.ok (insertGo s v) ∧
      (insertGo s v).length = s.length + 1 ∧
      appendList (some s) v = Except.ok (appendGo s v) ∧
      (appendGo s v).length = s.length + 1 := by
  refine ⟨rfl, rfl, fun s => ⟨rfl, rfl, rfl, appendGo_length s v⟩⟩

/-- C10: the accessors tolerate absent references: Head and Tail of a nil
list handle are nil, Value of a nil node is the zero value with false,
and Next of a nil node is nil, so a Head/Next/Value traversal never
dereferences nil. -/
theorem c10_nil_safe_accessors (T : Type) [Inhabited T] :
    headGo (none : Option (GoList T)) = none ∧
    tailGo (none : Option (GoList T)) = none ∧
    (∀ h : Heap T, valueGo h none = (default, false)) ∧
    (∀ h : Heap T, nextGo h none = none) :=
  ⟨rfl, rfl, fun _ => rfl, fun _ => rfl⟩

/-- C8: on every reachable present list holding elements v1, ..., vn in
head-to-tail order, String renders exactly the text Length: n, Data:
followed by a space and the string conversion of each element in order;
with n = 0 the data part is empty, giving the text Length: 0, Data:
verbatim. -/
theorem c8_string_format (T : Type) [DecidableEq T] [Inhabited T]
    (toStr : T → String) (ops : List (MutOp T)) :
    stringGo toStr (some (runOps ops)) =
      "Length: " ++ toString (listValues (runOps ops)).length ++ ", Data:"
        ++ renderData toStr (listValues (runOps ops)) := by
  obtain ⟨ids, hwc⟩ := runOps_wf ops
  show (listValues (runOps ops)).foldl _ _ = _
  rw [foldl_render]
  have hlen : (runOps ops).length = ((listValues (runOps ops)).length : Int) := by
    rw [listValues_eq_valsOf hwc, valsOf_length hwc.seg]
    exact hwc.len
  rw [hlen]
  have hts : ∀ n : Nat, toString ((n : Nat) : Int) = toString n := fun n => rfl
  rw [hts]

theorem first_occurrence_split {α : Type} [DecidableEq α] {l : List α} {x : α}
    (h : x ∈ l) : ∃ pre post, l = pre ++ x :: post ∧ x ∉ pre := by
  induction l with
  | nil => simp at h
  | cons a rest ih =>
    by_cases hax : a = x
    · exact ⟨[], rest, by rw [hax]; rfl, by simp⟩
    · have h2 : x ∈ rest := by
        rcases List.mem_cons.mp h with h3 | h3
        · exact absurd h3.symm hax
        · exact h3
      obtain ⟨pre, post, heq, hpre⟩ := ih h2
      refine ⟨a :: pre, post, by rw [heq]; rfl, ?_⟩
      intro hmem
      rcases List.mem_cons.mp hmem with h4 | h4
      · exact hax h4.symm
      · exact hpre h4

/-- C4: Delete of x on a reachable list holding x exactly once returns
true, removes only the node holding x, and keeps the other elements in
their relative order; Delete of x on a reachable list without x returns
false and leaves the whole state untouched. -/
theorem c4_delete_correct (T : Type) [DecidableEq T] [Inhabited T]
    (ops : List (MutOp T)) (x : T) :
    ((listValues (runOps ops)).count x = 1 →
      ∃ pre post, listValues (runOps ops) = pre ++ x :: post ∧
        x ∉ pre ∧ x ∉ post ∧
        (deleteGo (runOps ops) x).1 = true ∧
        listValues (deleteGo (runOps ops) x).2 = pre ++ post) ∧
    ((listValues (runOps ops)).count x = 0 →
      deleteGo (runOps ops) x = (false, runOps ops)) := by
  obtain ⟨ids, hwc⟩ := runOps_wf ops
  constructor
  · intro hcount
    have hmem : x ∈ listValues (runOps ops) := by
      have hpos : 0 < (listValues (runOps ops)).count x := by omega
      exact List.count_pos_iff.mp hpos
    obtain ⟨pre, post, heq, hpre⟩ := first_occurrence_split hmem
    have hpost : x ∉ post := by
      rw [heq, List.count_append] at hcount
      have h0 : pre.count x = 0 := List.count_eq_zero.mpr hpre
      rw [h0] at hcount
      have h1 : (x :: post).count x = post.count x + 1 := by
        simp [List.count_cons]
      rw [h1] at hcount
      have h2 : post.count x = 0 := by omega
      exact List.count_eq_zero.mp h2
    obtain ⟨ids2, hw2, herase, hiff⟩ := deleteGo_spec hwc x
    refine ⟨pre, post, heq, hpre, hpost, ?_, ?_⟩
    · rcases hb : (deleteGo (runOps ops) x).1 with _ | _
      · rw [hb] at hiff
        simp at hiff
        exact absurd hmem hiff
      · rfl
    · rw [herase, heq, List.erase_append_right _ hpre, List.erase_cons_head]
  · intro hcount
    have hnmem : x ∉ listValues (runOps ops) := List.count_eq_zero.mp hcount
    apply deleteGo_not_found hwc
    rw [← listValues_eq_valsOf hwc]
    exact hnmem

/-- Witness for C4: deleting 2 from the list built by Insert 3, Insert 2,
Insert 1 removes exactly the middle element, and deleting 5 from it is a
rejected no-op. -/
theorem c4_delete_correct_witness :
    (∃ pre post,
      listValues (runOps [MutOp.ins 3, MutOp.ins 2, MutOp.ins (1 : Int)])
          = pre ++ 2 :: post ∧
        (2 : Int) ∉ pre ∧ (2 : Int) ∉ post ∧
        (deleteGo (runOps [MutOp.ins 3, MutOp.ins 2, MutOp.ins (1 : Int)]) 2).1
          = true ∧
        listValues
          (deleteGo (runOps [MutOp.ins 3, MutOp.ins 2, MutOp.ins (1 : Int)]) 2).2
          = pre ++ post) ∧
    deleteGo (runOps [MutOp.ins 3, MutOp.ins 2, MutOp.ins (1 : Int)]) 5
      = (false, runOps [MutOp.ins 3, MutOp.ins 2, MutOp.ins (1 : Int)]) :=
  ⟨(c4_delete_correct Int [MutOp.ins 3, MutOp.ins 2, MutOp.ins 1] 2).1 (by decide),
   (c4_delete_correct Int [MutOp.ins 3, MutOp.ins 2, MutOp.ins 1] 5).2 (by decide)⟩

theorem WFc.ids_nil_of_vals_nil {s : GoList T} {ids : List Nat}
    (hw : WFc s ids) (hv : listValues s = []) : ids = [] := by
  have hlen := valsOf_length hw.seg
  rw [← listValues_eq_valsOf hw, hv] at hlen
  cases ids with
  | nil => rfl
  | cons i rest => simp at hlen

/-- C6: DeleteHead and DeleteTail on a reachable empty list both return
the zero value paired with false and leave the state entirely unchanged;
on a reachable non-empty list DeleteHead returns the first element paired
with true and DeleteTail returns the last element paired with true. -/
theorem c6_delete_boundary (T : Type) [DecidableEq T] [Inhabited T]
    (ops : List (MutOp T)) :
    (listValues (runOps ops) = [] →
      deleteHeadGo (runOps ops) = (default, false, runOps ops) ∧
      deleteTailGo (runOps ops) = (default, false, runOps ops)) ∧
    (∀ v vs, listValues (runOps ops) = v :: vs →
      (deleteHeadGo (runOps ops)).1 = v ∧
      (deleteHeadGo (runOps ops)).2.1 = true) ∧
    (∀ v vs, listValues (runOps ops) = vs ++ [v] →
      (deleteTailGo (runOps ops)).1 = v ∧
      (deleteTailGo (runOps ops)).2.1 = true) := by
  obtain ⟨ids, hwc⟩ := runOps_wf ops
  refine ⟨?_, ?_, ?_⟩
  · intro hv
    have hids := hwc.ids_nil_of_vals_nil hv
    subst hids
    exact ⟨deleteHeadGo_empty hwc, deleteTailGo_empty hwc⟩
  · intro v vs hv
    cases hic : ids with
    | nil =>
      rw [hic] at hwc
      rw [hwc.ids_nil_of_vals_nil ?_] at hic
      · rw [listValues_eq_valsOf hwc, valsOf_nil] at hv
        simp at hv
      · rw [listValues_eq_valsOf hwc, valsOf_nil]
    | cons i rest =>
      rw [hic] at hwc
      obtain ⟨nd, hl, s2, heq, hw2, hvals⟩ := deleteHeadGo_cons hwc
      have hvv : v = nd.value := by
        rw [listValues_eq_valsOf hwc, valsOf_cons hl] at hv
        injection hv with h1 h2
        exact h1.symm
      rw [heq, hvv]
      exact ⟨rfl, rfl⟩
  · intro v vs hv
    rcases List.eq_nil_or_concat ids with hic | ⟨init, t, hic⟩
    · rw [hic] at hwc
      rw [listValues_eq_valsOf hwc, valsOf_nil] at hv
      exact absurd hv.symm (by simp)
    · rw [List.concat_eq_append] at hic
      rw [hic] at hwc
      obtain ⟨ndt, hndtl, s2, heq, hw2, hvals⟩ := deleteTailGo_nonempty hwc
      have hvv : v = ndt.value := by
        have hv2 := hv
        rw [listValues_eq_valsOf hwc, valsOf_append] at hv2
        have ht : valsOf (runOps ops).heap [t] = [ndt.value] := by
          simp [valsOf, valAt, hndtl]
        rw [ht] at hv2
        have hg := congrArg List.getLast? hv2
        rw [List.getLast?_concat, List.getLast?_concat] at hg
        injection hg with h1
        exact h1.symm
      rw [heq, hvv]
      exact ⟨rfl, rfl⟩

/-- Witness for C6: the empty list rejects both removals unchanged, and
on the list 1, 2 built by two Appends DeleteHead yields 1 and DeleteTail
yields 2, both with true. -/
theorem c6_delete_boundary_witness :
    (deleteHeadGo (runOps ([] : List (MutOp Int)))
        = (default, false, runOps ([] : List (MutOp Int))) ∧
      deleteTailGo (runOps ([] : List (MutOp Int)))
        = (default, false, runOps ([] : List (MutOp Int)))) ∧
    ((deleteHeadGo (runOps [MutOp.app 1, MutOp.app (2 : Int)])).1 = 1 ∧
      (deleteHeadGo (runOps [MutOp.app 1, MutOp.app (2 : Int)])).2.1 = true) ∧
    ((deleteTailGo (runOps [MutOp.app 1, MutOp.app (2 : Int)])).1 = 2 ∧
      (deleteTailGo (runOps [MutOp.app 1, MutOp.app (2 : Int)])).2.1 = true) :=
  ⟨(c6_delete_boundary Int []).1 (by decide),
   (c6_delete_boundary Int [MutOp.app 1, MutOp.app 2]).2.1 1 [2] (by decide),
   (c6_delete_boundary Int [MutOp.app 1, MutOp.app 2]).2.2 2 [1] (by decide)⟩

/-!  The concurrency scenario of Test_Concurrency: n threads each run, in
program order, the loop body Append x, Delete x, Insert x, Delete x for
iterations 0, ..., iters - 1, against a shared list that initially holds
one sentinel.  Every operation of the source holds the RWMutex in write
mode for its whole duration, so a concurrent execution is an arbitrary
interleaving of atomic operations: a schedule, i.e. a list of thread ids
respecting each thread program order, which the per-thread program
counters enforce. -/

/-- The k-th operation of the loop body a test thread runs: iteration
k / 4, phase k % 4, namely Append, Delete, Insert, Delete of the value of
that iteration. -/
def threadOp (val : Nat → T) (k : Nat) : MutOp T :=
  match k % 4 with
  | 0 => MutOp.app (val (k / 4))
  | 1 => MutOp.del (val (k / 4))
  | 2 => MutOp.ins (val (k / 4))
  | _ => MutOp.del (val (k / 4))

/-- One scheduling step: the chosen thread runs its next operation
atomically, unless it has already finished all 4 * iters of them. -/
def schedStep {n : Nat} [DecidableEq T] [Inhabited T] (iters : Nat)
    (val : Nat → T) (st : GoList T × (Fin n → Nat)) (t : Fin n) :
    GoList T × (Fin n → Nat) :=
  if st.2 t < 4 * iters then
    (applyMut st.1 (threadOp val (st.2 t)),
      Function.update st.2 t (st.2 t + 1))
  else st

/-- Run a whole schedule from the initial list holding only the sentinel,
built by one Append on a new list as the test does. -/
def runSched (n iters : Nat) [DecidableEq T] [Inhabited T] (val : Nat → T)
    (c : T) (sched : List (Fin n)) : GoList T × (Fin n → Nat) :=
  sched.foldl (schedStep iters val) (appendGo (newList T) c, fun _ => 0)

/-- 1 when a thread whose program counter is k still owes a Delete of v:
odd counters sit between an Append or Insert of the value of iteration
k / 4 and the Delete of the same value that immediately follows it. -/
def pend [DecidableEq T] (val : Nat → T) (k : Nat) (v : T) : Nat :=
  if k % 2 = 1 ∧ val (k / 4) = v then 1 else 0

/-- The interleaving invariant: the shared list is well formed, no
counter runs past the end of the thread program, and each value occurs in
the list once per thread that owes it a Delete, plus once for the
sentinel. -/
def schedInv {n : Nat} [DecidableEq T] (iters : Nat) (val : Nat → T)
    (c : T) (st : GoList T × (Fin n → Nat)) : Prop :=
  WF st.1 ∧ (∀ t, st.2 t ≤ 4 * iters) ∧
    ∀ v, (listValues st.1).count v
      = (if v = c then 1 else 0) + Finset.univ.sum (fun t => pend val (st.2 t) v)

theorem sum_update_split {n : Nat} (g : Fin n → Nat) (t : Fin n) (b : Nat)
    (f : Nat → Nat) :
    Finset.univ.sum (fun t2 => f (Function.update g t b t2)) + f (g t)
      = Finset.univ.sum (fun t2 => f (g t2)) + f b := by
  have hcomp : (fun t2 => f (Function.update g t b t2))
      = Function.update (fun t2 => f (g t2)) t (f b) := by
    funext t2
    by_cases h : t2 = t
    · subst h; simp
    · simp [Function.update_apply, h]
  rw [hcomp, Finset.sum_update_of_mem (Finset.mem_univ t),
    Finset.sdiff_singleton_eq_erase]
  rw [← Finset.add_sum_erase Finset.univ (fun t2 => f (g t2)) (Finset.mem_univ t)]
  omega

theorem foldl_schedStep_pc {n : Nat} [DecidableEq T] [Inhabited T]
    (iters : Nat) (val : Nat → T) (sched : List (Fin n)) :
    ∀ (st : GoList T × (Fin n → Nat)), (∀ t2, st.2 t2 ≤ 4 * iters) →
      ∀ t, (sched.foldl (schedStep iters val) st).2 t
        = min (st.2 t + sched.count t) (4 * iters) := by
  induction sched with
  | nil =>
    intro st hb t
    have := hb t
    simp [List.count_nil]
    omega
  | cons u rest ih =>
    intro st hb t
    rw [List.foldl_cons]
    have hb2 : ∀ t2, (schedStep iters val st u).2 t2 ≤ 4 * iters := by
      intro t2
      unfold schedStep
      by_cases hlt : st.2 u < 4 * iters
      · rw [if_pos hlt]
        show Function.update st.2 u (st.2 u + 1) t2 ≤ 4 * iters
        by_cases ht2 : t2 = u
        · subst ht2
          rw [Function.update_same]
          omega
        · rw [Function.update_noteq ht2]
          exact hb t2
      · rw [if_neg hlt]
        exact hb t2
    rw [ih _ hb2 t]
    have hcnt : (u :: rest).count t = rest.count t + if t = u then 1 else 0 := by
      rcases eq_or_ne t u with h | h
      · subst h; simp [List.count_cons]
      · simp [List.count_cons, h, Ne.symm h]
    rw [hcnt]
    unfold schedStep
    by_cases hlt : st.2 u < 4 * iters
    · rw [if_pos hlt]
      show min (Function.update st.2 u (st.2 u + 1) t + rest.count t) (4 * iters)
        = min (st.2 t + (rest.count t + if t = u then 1 else 0)) (4 * iters)
      by_cases htu : t = u
      · subst htu
        rw [Function.update_same, if_pos rfl]
        omega
      · rw [Function.update_noteq htu, if_neg htu]
        omega
    · rw [if_neg hlt]
      show min (st.2 t + rest.count t) (4 * iters)
        = min (st.2 t + (rest.count t + if t = u then 1 else 0)) (4 * iters)
      by_cases htu : t = u
      · subst htu
        have hu : st.2 t = 4 * iters := by
          have := hb t
          omega
        rw [if_pos rfl]
        omega
      · rw [if_neg htu]
        omega

theorem pend_eval [DecidableEq T] (val : Nat → T) (k : Nat) (v : T) :
    pend val k v
      = if k % 2 = 1 then (if val (k / 4) = v then 1 else 0) else 0 := by
  unfold pend
  by_cases h1 : k % 2 = 1
  · by_cases h2 : val (k / 4) = v <;> simp [h1, h2]
  · simp [h1]

theorem count_cons_split {α : Type} [DecidableEq α] (w v : α) (l : List α) :
    (w :: l).count v = l.count v + if w = v then 1 else 0 := by
  rcases eq_or_ne w v with h | h
  · subst h; simp [List.count_cons]
  · simp [List.count_cons, h, Ne.symm h]

/-- One scheduling step preserves the interleaving invariant. -/
theorem schedStep_inv {n : Nat} [DecidableEq T] [Inhabited T] {iters : Nat}
    {val : Nat → T} {c : T} {st : GoList T × (Fin n → Nat)}
    (hinv : schedInv iters val c st) (t : Fin n) :
    schedInv iters val c (schedStep iters val st t) := by
  obtain ⟨⟨ids, hwc⟩, hpc, hcnt⟩ := hinv
  unfold schedStep
  by_cases hlt : st.2 t < 4 * iters
  swap
  · rw [if_neg hlt]
    exact ⟨⟨ids, hwc⟩, hpc, hcnt⟩
  rw [if_pos hlt]
  set k := st.2 t with hk
  have hpc2 : ∀ t2, Function.update st.2 t (k + 1) t2 ≤ 4 * iters := by
    intro t2
    by_cases h : t2 = t
    · subst h; rw [Function.update_same]; omega
    · rw [Function.update_noteq h]; exact hpc t2
  have hsum : ∀ v, Finset.univ.sum
        (fun t2 => pend val (Function.update st.2 t (k + 1) t2) v)
        + pend val k v
      = Finset.univ.sum (fun t2 => pend val (st.2 t2) v)
        + pend val (k + 1) v := by
    intro v
    have := sum_update_split st.2 t (k + 1) (fun k2 => pend val k2 v)
    rw [← hk] at this
    exact this
  have hr : k % 4 = 0 ∨ k % 4 = 1 ∨ k % 4 = 2 ∨ k % 4 = 3 := by omega
  rcases hr with hr | hr | hr | hr
  · -- Append of val (k / 4)
    have hop : threadOp val k = MutOp.app (val (k / 4)) := by
      unfold threadOp; rw [hr]
    rw [hop]
    obtain ⟨hw2, hvals⟩ := appendGo_wfc_vals hwc (val (k / 4))
    refine ⟨⟨_, hw2⟩, hpc2, ?_⟩
    intro v
    show (listValues (appendGo st.1 (val (k / 4)))).count v
      = (if v = c then 1 else 0)
        + Finset.univ.sum (fun t2 => pend val (Function.update st.2 t (k + 1) t2) v)
    rw [hvals, List.count_append]
    have hcsing : List.count v [val (k / 4)]
        = if val (k / 4) = v then 1 else 0 := by
      have := count_cons_split (val (k / 4)) v []
      simpa using this
    rw [hcsing]
    have hs := hsum v
    have hc := hcnt v
    have hp0 : pend val k v = 0 := by
      rw [pend_eval, if_neg (by omega)]
    have hp1 : pend val (k + 1) v = if val (k / 4) = v then 1 else 0 := by
      rw [pend_eval, if_pos (by omega)]
      have hdiv : (k + 1) / 4 = k / 4 := by omega
      rw [hdiv]
    rw [hp0, hp1] at hs
    set A := (if v = c then 1 else 0) with hA
    set B := (if val (k / 4) = v then 1 else 0) with hB
    omega
  · -- first Delete of val (k / 4)
    have hop : threadOp val k = MutOp.del (val (k / 4)) := by
      unfold threadOp; rw [hr]
    rw [hop]
    obtain ⟨ids2, hw2, herase, hiff⟩ := deleteGo_spec hwc (val (k / 4))
    refine ⟨⟨ids2, hw2⟩, hpc2, ?_⟩
    intro v
    show (listValues (deleteGo st.1 (val (k / 4))).2).count v
      = (if v = c then 1 else 0)
        + Finset.univ.sum (fun t2 => pend val (Function.update st.2 t (k + 1) t2) v)
    rw [herase]
    have hcerase : ((listValues st.1).erase (val (k / 4))).count v
        = (listValues st.1).count v - if val (k / 4) = v then 1 else 0 := by
      rw [List.count_erase]
      rcases eq_or_ne (val (k / 4)) v with h | h <;> simp [h]
    rw [hcerase]
    have hs := hsum v
    have hc := hcnt v
    have hp0 : pend val k v = if val (k / 4) = v then 1 else 0 := by
      rw [pend_eval, if_pos (by omega)]
    have hp1 : pend val (k + 1) v = 0 := by
      rw [pend_eval, if_neg (by omega)]
    rw [hp0, hp1] at hs
    set A := (if v = c then 1 else 0) with hA
    set B := (if val (k / 4) = v then 1 else 0) with hB
    omega
  · -- Insert of val (k / 4)
    have hop : threadOp val k = MutOp.ins (val (k / 4)) := by
      unfold threadOp; rw [hr]
    rw [hop]
    have hw2 := insertGo_wfc hwc (val (k / 4))
    have hvals := insertGo_vals hwc (val (k / 4))
    refine ⟨⟨_, hw2⟩, hpc2, ?_⟩
    intro v
    show (listValues (insertGo st.1 (val (k / 4)))).count v
      = (if v = c then 1 else 0)
        + Finset.univ.sum (fun t2 => pend val (Function.update st.2 t (k + 1) t2) v)
    rw [hvals, count_cons_split]
    have hs := hsum v
    have hc := hcnt v
    have hp0 : pend val k v = 0 := by
      rw [pend_eval, if_neg (by omega)]
    have hp1 : pend val (k + 1) v = if val (k / 4) = v then 1 else 0 := by
      rw [pend_eval, if_pos (by omega)]
      have hdiv : (k + 1) / 4 = k / 4 := by omega
      rw [hdiv]
    rw [hp0, hp1] at hs
    set A := (if v = c then 1 else 0) with hA
    set B := (if val (k / 4) = v then 1 else 0) with hB
    omega
  · -- second Delete of val (k / 4)
    have hop : threadOp val k = MutOp.del (val (k / 4)) := by
      unfold threadOp; rw [hr]
    rw [hop]
    obtain ⟨ids2, hw2, herase, hiff⟩ := deleteGo_spec hwc (val (k / 4))
    refine ⟨⟨ids2, hw2⟩, hpc2, ?_⟩
    intro v
    show (listValues (deleteGo st.1 (val (k / 4))).2).count v
      = (if v = c then 1 else 0)
        + Finset.univ.sum (fun t2 => pend val (Function.update st.2 t (k + 1) t2) v)
    rw [herase]
    have hcerase : ((listValues st.1).erase (val (k / 4))).count v
        = (listValues st.1).count v - if val (k / 4) = v then 1 else 0 := by
      rw [List.count_erase]
      rcases eq_or_ne (val (k / 4)) v with h | h <;> simp [h]
    rw [hcerase]
    have hs := hsum v
    have hc := hcnt v
    have hp0 : pend val k v = if val (k / 4) = v then 1 else 0 := by
      rw [pend_eval, if_pos (by omega)]
    have hp1 : pend val (k + 1) v = 0 := by
      rw [pend_eval, if_neg (by omega)]
    rw [hp0, hp1] at hs
    set A := (if v = c then 1 else 0) with hA
    set B := (if val (k / 4) = v then 1 else 0) with hB
    omega

theorem foldl_schedStep_inv {n : Nat} [DecidableEq T] [Inhabited T]
    {iters : Nat} {val : Nat → T} {c : T} (sched : List (Fin n)) :
    ∀ st : GoList T × (Fin n → Nat), schedInv iters val c st →
      schedInv iters val c (sched.foldl (schedStep iters val) st) := by
  induction sched with
  | nil => intro st h; exact h
  | cons u rest ih => intro st h; exact ih _ (schedStep_inv h u)

theorem count_all_eq_singleton {α : Type} [DecidableEq α] {l : List α} {c : α}
    (h : ∀ v, l.count v = if v = c then 1 else 0) : l = [c] := by
  cases l with
  | nil =>
    have hc := h c
    simp at hc
  | cons a rest =>
    have hac : a = c := by
      by_contra hne
      have ha := h a
      rw [count_cons_split, if_pos rfl, if_neg hne] at ha
      omega
    subst hac
    have hz : ∀ v, rest.count v = 0 := by
      intro v
      have hv := h v
      rw [count_cons_split] at hv
      rcases eq_or_ne v a with hva | hva
      · subst hva
        rw [if_pos rfl] at hv
        omega
      · rw [if_neg (Ne.symm hva), if_neg hva] at hv
        omega
    have hrest : rest = [] := by
      cases hrc : rest with
      | nil => rfl
      | cons b rest2 =>
        have hb := hz b
        rw [hrc, count_cons_split, if_pos rfl] at hb
        omega
    rw [hrest]

theorem schedInv_init {n : Nat} [DecidableEq T] [Inhabited T] (iters : Nat)
    (val : Nat → T) (c : T) :
    schedInv iters val c ((appendGo (newList T) c, fun _ => (0 : Nat)) :
      GoList T × (Fin n → Nat)) := by
  obtain ⟨hw0, hvals0⟩ := appendGo_wfc_vals (@wfc_newList T) c
  refine ⟨⟨_, hw0⟩, fun t => Nat.zero_le _, ?_⟩
  intro v
  show List.count v (listValues (appendGo (newList T) c))
    = (if v = c then 1 else 0)
      + Finset.univ.sum (fun _ : Fin n => pend val 0 v)
  rw [hvals0, listValues_newList]
  have hsz : Finset.univ.sum (fun _ : Fin n => pend val 0 v) = 0 := by
    have hp : pend val 0 v = 0 := by
      rw [pend_eval]
      simp
    rw [hp]
    exact Finset.sum_const_zero
  rw [hsz]
  have h1 : ([] ++ [c] : List T).count v = if c = v then 1 else 0 := by
    rw [List.nil_append, count_cons_split]
    simp
  rw [h1]
  rcases eq_or_ne v c with h | h
  · subst h; simp
  · simp [h, Ne.symm h]

/-- C9: any interleaving of n threads each running the test loop body
Append x, Delete x, Insert x, Delete x for its 4 * iters program steps,
against a shared list initially holding one sentinel, ends with the list
holding exactly the sentinel, well formed (no lost update, no corrupted
chain).  Each source operation holds the RWMutex in write mode for its
whole duration, so a concurrent run is exactly such an interleaving of
atomic operations; a schedule is any sequence of thread ids in which
every thread is scheduled exactly its 4 * iters times. -/
theorem c9_concurrent_safety (T : Type) [DecidableEq T] [Inhabited T]
    (n iters : Nat) (val : Nat → T) (c : T) (sched : List (Fin n))
    (hsched : ∀ t, sched.count t = 4 * iters) :
    listValues (runSched n iters val c sched).1 = [c] ∧
      StructOK (runSched n iters val c sched).1 := by
  have hrs : runSched n iters val c sched
      = sched.foldl (schedStep iters val)
        (appendGo (newList T) c, fun _ => 0) := rfl
  have hfin := foldl_schedStep_inv sched
    (appendGo (newList T) c, fun _ => 0) (schedInv_init iters val c)
  rw [← hrs] at hfin
  obtain ⟨⟨ids, hwc⟩, hpc, hcnt⟩ := hfin
  have hpcfin : ∀ t, (runSched n iters val c sched).2 t = 4 * iters := by
    intro t
    have hlem := foldl_schedStep_pc iters val sched
      (appendGo (newList T) c, fun _ => 0) (fun t2 => Nat.zero_le _) t
    rw [← hrs, hsched t] at hlem
    simpa using hlem
  have hcnt2 : ∀ v, (listValues (runSched n iters val c sched).1).count v
      = if v = c then 1 else 0 := by
    intro v
    have h := hcnt v
    have hz : Finset.univ.sum
        (fun t => pend val ((runSched n iters val c sched).2 t) v) = 0 := by
      apply Finset.sum_eq_zero
      intro t _
      rw [hpcfin t, pend_eval, if_neg (by omega)]
    rw [hz] at h
    omega
  exact ⟨count_all_eq_singleton hcnt2, structOK_of_WFc hwc⟩

/-- Witness for C9: two threads, one iteration each, sentinel 777,
alternating schedule: the final list holds exactly 777. -/
theorem c9_concurrent_safety_witness :
    listValues (runSched 2 1 (fun j => (j : Int)) 777
      ([0, 1, 0, 1, 0, 1, 0, 1] : List (Fin 2))).1 = [777] ∧
    StructOK (runSched 2 1 (fun j => (j : Int)) 777
      ([0, 1, 0, 1, 0, 1, 0, 1] : List (Fin 2))).1 :=
  c9_concurrent_safety Int 2 1 (fun j => (j : Int)) 777
    ([0, 1, 0, 1, 0, 1, 0, 1] : List (Fin 2)) (by decide)

end GoListModel
